import Mathlib

/-!
Verification development for the censync/go-validator repository
(src/validator.go and the builtins file).  The Go code is shallowly
embedded: reflective values become the inductive `Value`, the tag
grammar regexp `([^'=]+)=(?:'?)([^'=]*)(?:'?)(?:,|$)` is embedded as an
explicit leftmost-first backtracking matcher, and the traversal engine
`Validate` is a pure recursive function.  Go panics (reachable through
reflect accessors) are modeled explicitly, never hidden.
-/

namespace Validator

/-- Errors of validator.go: the sentinel TextErr values (ErrZeroValue, ErrMin,
ErrMax, ErrLen, ErrRegexp, ErrUnsupported, ErrBadParameter, ErrUnknownTag,
ErrInvalid, ErrInvalidValue, ErrInvalidTypedValue), plus `customMsg` for an
error built by errors.New from a msg_ template in validateVar.  The plain
errors.New of SetValidationFunc is modeled by its message string there. -/
inductive VErr where
  | zeroValue
  | errMin
  | errMax
  | errLen
  | errRegexp
  | unsupported
  | badParameter
  | unknownTag
  | invalid
  | invalidValue
  | invalidTypedValue
  | customMsg : String → VErr
deriving DecidableEq, Repr

mutual
/-- Shallow model of Go values as validator.go observes them through reflect.
Modeled kinds: String, Int (int and int64 collapse to `Int`; the code only
compares them), Bool, Ptr (`vptrNil` a typed nil pointer, `vptr` a non-nil
pointer), the invalid value (nil interface), and Struct carrying its reflect
type name (`Type.String()`) and its fields.  Uint, float, slice, map, array,
chan, func and interface kinds are outside the modeled subset.  Each struct
field carries its declared name, its raw annotation for the validator's tag
key (`Tag.Get(tagName)` already applied), and its value. -/
inductive Value where
  | vstr : String → Value
  | vint : Int → Value
  | vbool : Bool → Value
  | vptrNil : Value
  | vptr : Value → Value
  | vinvalid : Value
  | vstruct : String → Fields → Value

/-- Struct fields: declared name, raw annotation string, value. -/
inductive Fields where
  | fnil : Fields
  | fcons : String → String → Value → Fields → Fields
end

/-- Result of one ValidationFunc call: nil, a non-nil error, or a Go panic
(reflect accessors such as Value.Bool can fault; see notZero). -/
inductive RuleRes where
  | okR
  | errR : VErr → RuleRes
  | panicR : String → RuleRes
deriving DecidableEq, Repr

/-- ValidationFunc is a function receiving the value and the tag parameter. -/
def RuleFn := Value → String → RuleRes

/-- The validationFuncs map of a Validator, as an association list. -/
abbrev Registry := List (String × RuleFn)

/-- Map lookup mv.validationFuncs[name]. -/
def lookupFunc (reg : Registry) (name : String) : Option RuleFn :=
  (reg.find? (fun p => p.1 == name)).map (fun p => p.2)

/-- One tag item: name of the tag and parameter for the validation function. -/
structure tag where
  Name : String
  Param : String
deriving DecidableEq, Repr

/-- A list of tags. -/
abbrev tagList := List tag

/-- tagList.getByName: the first tag with the given name. -/
def getByName (tl : tagList) (name : String) : Option tag :=
  tl.find? (fun t => t.Name == name)

/- ---------------- tag grammar parser (tagRegexp + parseTags) ----------- -/

/-- The single quote character (written via its code point). -/
def quoteCh : Char := Char.ofNat 39

/-- The character class [^'=] of tagRegexp. -/
def nameChar (c : Char) : Bool := !(c == quoteCh) && !(c == '=')

/-- The tail (?:'?)(?:,|$) of tagRegexp: an optional quote (preferred, as the
regexp engine is leftmost-first greedy) followed by a comma or end of input.
Returns the remaining input after the match. -/
def closeAfter : List Char → Option (List Char)
  | [] => some []
  | c :: rest =>
    if c == quoteCh then
      match rest with
      | [] => some []
      | d :: rest2 => if d == ',' then some rest2 else none
    else if c == ',' then some rest
    else none

/-- Greedy ([^'=]*) followed by closeAfter, with leftmost-first backtracking:
a longer capture is preferred whenever the rest of the pattern still matches.
Returns the capture of group 2 and the remaining input. -/
def valueMatch : List Char → Option (List Char × List Char)
  | [] => some ([], [])
  | c :: rest =>
    if nameChar c then
      match valueMatch rest with
      | some (g, r) => some (c :: g, r)
      | none => (closeAfter (c :: rest)).map (fun r => (([] : List Char), r))
    else (closeAfter (c :: rest)).map (fun r => (([] : List Char), r))

/-- The value part (?:'?)([^'=]*)(?:'?)(?:,|$) of tagRegexp: the leading
optional quote is consumed greedily, with fallback to not consuming it. -/
def matchValue : List Char → Option (List Char × List Char)
  | [] => valueMatch []
  | c :: rest =>
    if c == quoteCh then
      match valueMatch rest with
      | some p => some p
      | none => valueMatch (c :: rest)
    else valueMatch (c :: rest)

/-- One attempted match of tagRegexp anchored at the start of s: a non-empty
greedy run of [^'=] (group 1), a literal =, then the value part.  Returns
(group 1, group 2, rest after the whole match). -/
def matchAt (s : List Char) : Option (List Char × List Char × List Char) :=
  let run := s.takeWhile nameChar
  if run.isEmpty then none
  else
    match s.dropWhile nameChar with
    | '=' :: rest => (matchValue rest).map (fun p => (run, p.1, p.2))
    | _ => none

/-- FindAllStringSubmatch: scan for the leftmost match, emit its groups, and
continue after the match.  Fueled; every match consumes at least two
characters, so fuel equal to the length of the input suffices. -/
def findAllAux : Nat → List Char → List (List Char × List Char)
  | 0, _ => []
  | _, [] => []
  | fuel + 1, c :: rest =>
    match matchAt (c :: rest) with
    | some (g1, g2, r) => (g1, g2) :: findAllAux fuel r
    | none => findAllAux fuel rest

/-- tagRegexp.FindAllStringSubmatch(t, -1), keeping the two capture groups. -/
def findAll (s : List Char) : List (List Char × List Char) :=
  findAllAux s.length s

/-- The space character predicate used by strings.Trim(s, " "). -/
def isSp (c : Char) : Bool := c == ' '

/-- strings.Trim(s, " "): remove leading and trailing spaces. -/
def trimSp (l : List Char) : List Char :=
  ((l.dropWhile isSp).reverse.dropWhile isSp).reverse

/-- The loop of parseTags over the extracted matches: trim the name, fail the
whole parse with ErrUnknownTag (returning the empty tagList) if it is empty,
else trim the parameter and collect the tag. -/
def buildTags : List (List Char × List Char) → tagList × Option VErr
  | [] => ([], none)
  | (g1, g2) :: rest =>
    let nm := trimSp g1
    if nm.isEmpty then ([], some .unknownTag)
    else
      match buildTags rest with
      | (_, some e) => ([], some e)
      | (l, none) => (⟨⟨nm⟩, ⟨trimSp g2⟩⟩ :: l, none)

/-- parseTags (validator.go): extract all tagRegexp matches and build the
tagList; mirrors the Go pair return (tagList, error). -/
def parseTags (t : String) : tagList × Option VErr :=
  buildTags (findAll t.data)

/- ---------------- builtin rule functions ------------------------------- -/

/-- Value of a single digit character, hexadecimal digits included
(decimal 0-9, then a-f and A-F as 10..15, by code point arithmetic). -/
def digVal (c : Char) : Option Nat :=
  let n := c.toNat
  if 48 ≤ n ∧ n ≤ 57 then some (n - 48)
  else if 97 ≤ n ∧ n ≤ 102 then some (n - 87)
  else if 65 ≤ n ∧ n ≤ 70 then some (n - 55)
  else none

/-- Digit loop of strconv.ParseUint: digits of the given base with the
underscore rules of base-0 parsing (an underscore may appear after the base
prefix or between digits, never doubled, leading or trailing).  The flags
are "a digit was seen" (a bare base prefix with no digits is an error), "an
underscore is licensed here" (true after a base prefix or a digit), and "the
previous character was an underscore". -/
def parseDigsAux (base : Nat) : List Char → Nat → Bool → Bool → Bool → Option Nat
  | [], acc, seen, _, afterU => if seen && !afterU then some acc else none
  | c :: rest, acc, seen, uAllowed, afterU =>
    if c == '_' then
      if uAllowed && !afterU then parseDigsAux base rest acc seen uAllowed true else none
    else
      match digVal c with
      | some d =>
        if d < base then parseDigsAux base rest (acc * base + d) true true false else none
      | none => none

/-- Magnitude part of strconv.ParseInt(s, 0, 64) after the sign: base prefix
detection (0x, 0o, 0b, legacy leading 0 = octal) and digits. -/
def parseMag : List Char → Option Nat
  | '0' :: c :: rest =>
    if c == 'x' || c == 'X' then parseDigsAux 16 rest 0 false true false
    else if c == 'o' || c == 'O' then parseDigsAux 8 rest 0 false true false
    else if c == 'b' || c == 'B' then parseDigsAux 2 rest 0 false true false
    else parseDigsAux 8 (c :: rest) 0 true true false
  | l => parseDigsAux 10 l 0 false false false

/-- asInt (builtins): strconv.ParseInt(param, 0, 64), modeled from the Go
standard library: optional sign, base prefixes, underscores, and the int64
range check; any failure is ErrBadParameter in asInt, so the model returns
none. -/
def asInt (param : String) : Option Int :=
  match param.data with
  | [] => none
  | '+' :: rest =>
    (parseMag rest).bind (fun n => if n ≤ 2 ^ 63 - 1 then some (Int.ofNat n) else none)
  | '-' :: rest =>
    (parseMag rest).bind (fun n => if n ≤ 2 ^ 63 then some (-(Int.ofNat n)) else none)
  | l => (parseMag l).bind (fun n => if n ≤ 2 ^ 63 - 1 then some (Int.ofNat n) else none)

/-- The Go kind name of a modeled value, used in reflect panic messages. -/
def kindName : Value → String
  | .vstr _ => "string"
  | .vint _ => "int"
  | .vbool _ => "bool"
  | .vptrNil => "ptr"
  | .vptr _ => "ptr"
  | .vinvalid => "invalid"
  | .vstruct _ _ => "struct"

/-- reflect.Value.String(): the string itself for string kind, the
"<T Value>" placeholder otherwise (this accessor never panics).  For
pointers the type text varies with the pointee type in Go; the model uses
the kind name, which preserves the leading angle bracket. -/
def goString : Value → String
  | .vstr s => s
  | .vinvalid => "<invalid Value>"
  | .vstruct tn _ => "<" ++ tn ++ " Value>"
  | v => "<" ++ kindName v ++ " Value>"

/-- Type.FieldByName: the first field with the given declared name. -/
def findField : Fields → String → Option Value
  | .fnil, _ => none
  | .fcons n _ v rest, name => if n == name then some v else findField rest name

/-- strings.Contains on character lists. -/
def hasSub (pat : List Char) : List Char → Bool
  | [] => pat.isEmpty
  | c :: rest => pat.isPrefixOf (c :: rest) || hasSub pat rest

/-- strings.Contains(strings.ToLower(typeName), "null"). -/
def containsNull (tn : String) : Bool :=
  hasSub "null".data (tn.data.map Char.toLower)

/-- The inner nullable-wrapper switch of notZero, entered when the struct's
type name contains "null", it has a Valid field, and that field is a true
bool.  reflect.Value.Int and .Float panic on a wrongly-kinded field; .String
does not.  The model has no float kind, so any present Float64 field has the
wrong kind and faults, mirroring Go for the modeled subset. -/
def notZeroNull (tn : String) (fs : Fields) : RuleRes :=
  if tn == "sql.NullInt64" || tn == "null.Int" then
    match findField fs "Int64" with
    | some (.vint n) => if n != 0 then .okR else .errR .zeroValue
    | some fv => .panicR ("reflect: call of reflect.Value.Int on " ++ kindName fv ++ " Value")
    | none => .errR .zeroValue
  else if tn == "sql.NullString" || tn == "null.String" then
    match findField fs "String" with
    | some fv => if goString fv != "" then .okR else .errR .zeroValue
    | none => .errR .zeroValue
  else if tn == "sql.NullFloat64" || tn == "null.Float" then
    match findField fs "Float64" with
    | some fv => .panicR ("reflect: call of reflect.Value.Float on " ++ kindName fv ++ " Value")
    | none => .errR .zeroValue
  else .errR .unsupported

/-- notZero (builtins, registered as "notempty" and "empty"): non-zero check
per kind; nullable wrapper structs are special-cased by type name.  The Valid
field is read with reflect.Value.Bool, which panics when the field is not a
bool. -/
def notZero (v : Value) (_param : String) : RuleRes :=
  match v with
  | .vstr s => if s != "" then .okR else .errR .zeroValue
  | .vptrNil => .errR .zeroValue
  | .vptr _ => .okR
  | .vint n => if n != 0 then .okR else .errR .zeroValue
  | .vbool b => if b then .okR else .errR .zeroValue
  | .vinvalid => .errR .zeroValue
  | .vstruct tn fs =>
    if containsNull tn then
      match findField fs "Valid" with
      | some (.vbool b) => if b then notZeroNull tn fs else .errR .zeroValue
      | some fv => .panicR ("reflect: call of reflect.Value.Bool on " ++ kindName fv ++ " Value")
      | none => .errR .zeroValue
    else .errR .unsupported

/-- min (builtins): for strings the byte length, for ints the value, compared
against the parameter; unsupported kinds (everything else in the modeled
subset) return ErrUnsupported before the parameter is parsed. -/
def min (v : Value) (param : String) : RuleRes :=
  match v with
  | .vstr s =>
    match asInt param with
    | none => .errR .badParameter
    | some p => if (Int.ofNat s.utf8ByteSize) < p then .errR .errMin else .okR
  | .vint n =>
    match asInt param with
    | none => .errR .badParameter
    | some p => if n < p then .errR .errMin else .okR
  | _ => .errR .unsupported

/-- max (builtins): mirror image of min. -/
def max (v : Value) (param : String) : RuleRes :=
  match v with
  | .vstr s =>
    match asInt param with
    | none => .errR .badParameter
    | some p => if (Int.ofNat s.utf8ByteSize) > p then .errR .errMax else .okR
  | .vint n =>
    match asInt param with
    | none => .errR .badParameter
    | some p => if n > p then .errR .errMax else .okR
  | _ => .errR .unsupported

/-- The base64 alphabet [A-Za-z0-9+/]. -/
def b64Char (c : Char) : Bool :=
  ('A' ≤ c && c ≤ 'Z') || ('a' ≤ c && c ≤ 'z') || ('0' ≤ c && c ≤ '9') || c == '+' || c == '/'

/-- regexpBase64 (builtins): groups of four alphabet characters with a final
group of 2 + "==", 3 + "=", or 4; the empty string does not match. -/
def b64Valid : List Char → Bool
  | [a, b, '=', '='] => b64Char a && b64Char b
  | [a, b, c, '='] => b64Char a && b64Char b && b64Char c
  | [a, b, c, d] => b64Char a && b64Char b && b64Char c && b64Char d
  | a :: b :: c :: d :: e :: rest =>
    b64Char a && b64Char b && b64Char c && b64Char d && b64Valid (e :: rest)
  | _ => false

/-- Decimal digit predicate. -/
def isDig (c : Char) : Bool := '0' ≤ c && c ≤ '9'

/-- Two-digit number from two characters. -/
def twoDig (a b : Char) : Option Nat :=
  if isDig a && isDig b then some ((a.toNat - '0'.toNat) * 10 + (b.toNat - '0'.toNat)) else none

/-- The zone suffix: Z or a signed hh:mm offset. -/
def rfc3339Zone : List Char → Bool
  | ['Z'] => true
  | [sgn, h1, h2, ':', m1, m2] =>
    (sgn == '+' || sgn == '-') &&
      (match twoDig h1 h2, twoDig m1 m2 with
       | some h, some m => h ≤ 23 && m ≤ 59
       | _, _ => false)
  | _ => false

/-- Optional fractional seconds (a dot and at least one digit) followed by
the zone. -/
def rfc3339Tail : List Char → Bool
  | '.' :: rest =>
    match rest.span isDig with
    | (ds, tail) => !ds.isEmpty && rfc3339Zone tail
  | l => rfc3339Zone l

/-- Modelled from the spec: Go's time.Parse(time.RFC3339, s) succeeding, the
timestamp branch of typeValid.  The standard-library parser is not part of
this repository; the model checks the RFC3339 shape
dddd-dd-ddTdd:dd:dd(.d+)?(Z|(+|-)dd:dd) with the field ranges Go enforces
(calendar-exact day-per-month validation is approximated by 1..31). -/
def rfc3339Valid (s : String) : Bool :=
  match s.data with
  | y1 :: y2 :: y3 :: y4 :: '-' :: m1 :: m2 :: '-' :: d1 :: d2 :: 'T' ::
      h1 :: h2 :: ':' :: mi1 :: mi2 :: ':' :: s1 :: s2 :: rest =>
    isDig y1 && isDig y2 && isDig y3 && isDig y4 &&
      (match twoDig m1 m2, twoDig d1 d2, twoDig h1 h2, twoDig mi1 mi2, twoDig s1 s2 with
       | some mo, some da, some ho, some mi, some se =>
         1 ≤ mo && mo ≤ 12 && 1 ≤ da && da ≤ 31 && ho ≤ 23 && mi ≤ 59 && se ≤ 59
       | _, _, _, _, _ => false) &&
      rfc3339Tail rest
  | _ => false

/-- typeValid (builtins): stringify the value with reflect.Value.String and
check it against the named format; an unknown format parameter is
ErrBadParameter. -/
def typeValid (v : Value) (param : String) : RuleRes :=
  let str := goString v
  if param == "timestamp" then
    if rfc3339Valid str then .okR else .errR .invalidTypedValue
  else if param == "base64" then
    if b64Valid str.data then .okR else .errR .invalidTypedValue
  else .errR .badParameter

/- ---------------- value validator (validateVar, valid) ----------------- -/

/-- Outcome of validating one variable: nil, a single plain error
(ErrUnknownTag from validateVar or ErrUnsupported from valid), an
ErrorArray, or a propagating Go panic. -/
inductive VRes where
  | ok
  | hard : VErr → VRes
  | arr : List VErr → VRes
  | panicked : String → VRes
deriving DecidableEq, Repr

/-- The pattern "\x7bparam\x7d" replaced inside msg_ templates. -/
def msgPat : List Char := "\x7bparam\x7d".data

/-- Replacement loop of strings.Replace(tmpl, pat, rep, -1): non-overlapping,
left to right.  Fueled by the input length, which suffices because every
replacement consumes the non-empty pattern. -/
def replaceAux (rep : List Char) : Nat → List Char → List Char
  | 0, l => l
  | _, [] => []
  | fuel + 1, c :: rest =>
    if msgPat.isPrefixOf (c :: rest) then
      rep ++ replaceAux rep fuel ((c :: rest).drop msgPat.length)
    else c :: replaceAux rep fuel rest

/-- strings.Replace(tmpl, "\x7bparam\x7d", param, -1) of validateVar. -/
def replaceParam (tmpl param : String) : String :=
  ⟨replaceAux param.data tmpl.data.length tmpl.data⟩

/-- Custom error message lookup of validateVar: if a msg_<name> tag exists in
the same list, the rule's error is replaced by errors.New of the template
with "\x7bparam\x7d" substituted by the rule tag's parameter. -/
def applyMsg (tags : tagList) (t : tag) (e : VErr) : VErr :=
  match getByName tags ("msg_" ++ t.Name) with
  | some errTag => .customMsg (replaceParam errTag.Param t.Param)
  | none => e

/-- strings.HasPrefix(n, "msg_"), on character lists so that it computes. -/
def hasMsgPrefix (n : String) : Bool :=
  List.isPrefixOf "msg_".data n.data

/-- A reserved (metadata) directive name: msg_-prefixed or "attr". -/
def reservedName (n : String) : Bool :=
  hasMsgPrefix n || n == "attr"

/-- The loop of validateVar: walk the tags accumulating rule errors.  A name
absent from the registry is skipped when reserved, otherwise the whole
validation returns ErrUnknownTag at once, discarding the accumulated array.
A registered function is always dispatched, whatever its name.  `tags` is
the full original list (msg_ lookups search all of it), `errs` the ErrorArray
built so far. -/
def validateVarAux (reg : Registry) (v : Value) (tags : tagList) :
    List tag → List VErr → VRes
  | [], errs => if errs.isEmpty then .ok else .arr errs
  | t :: ts, errs =>
    match lookupFunc reg t.Name with
    | none =>
      if hasMsgPrefix t.Name || t.Name == "attr" then validateVarAux reg v tags ts errs
      else .hard .unknownTag
    | some fn =>
      match fn v t.Param with
      | .okR => validateVarAux reg v tags ts errs
      | .errR e => validateVarAux reg v tags ts (errs ++ [applyMsg tags t e])
      | .panicR msg => .panicked msg

/-- validateVar (validator.go): validate one single variable. -/
def validateVar (reg : Registry) (v : Value) (tags : tagList) : VRes :=
  validateVarAux reg v tags tags []

/-- Struct kind test. -/
def isStructV : Value → Bool
  | .vstruct _ _ => true
  | _ => false

/-- valid (validator.go): dereference non-nil pointers, reject structs with
ErrUnsupported, pass the invalid value (nil) or the plain value on to
validateVar. -/
def valid (reg : Registry) : Value → tagList → VRes
  | .vptr u, tags => valid reg u tags
  | .vstruct _ _, _ => .hard .unsupported
  | .vinvalid, tags => validateVar reg .vinvalid tags
  | v, tags => validateVar reg v tags

/- ---------------- record traversal (Validate) -------------------------- -/

deriving instance DecidableEq for Except

/-- The pointer-dereference loop of the field walk:
for f.Kind() == Ptr && !f.IsNil() do f = f.Elem(). -/
def deref : Value → Value
  | .vptr u => deref u
  | v => v

/-- ErrorMap: field name to the error recorded for it.  Go maps are
unordered; the model keeps insertion order, which claims never rely on
beyond key lookup and key sets. -/
abbrev ErrorMap := List (String × VErr)

/-- Whether the map has the key. -/
def emHasKey (m : ErrorMap) (k : String) : Bool := m.any (fun p => p.1 == k)

/-- Go map assignment m[k] = e: overwrite or append. -/
def emInsert (m : ErrorMap) (k : String) (e : VErr) : ErrorMap :=
  if emHasKey m k then m.map (fun p => if p.1 == k then (k, e) else p)
  else m ++ [(k, e)]

/-- Go map read m[k]. -/
def emLookup (m : ErrorMap) (k : String) : Option VErr :=
  (m.find? (fun p => p.1 == k)).map (fun p => p.2)

/-- The custom field alias of Validate: an attr tag's parameter replaces the
declared name for all further reporting. -/
def displayName (tags : tagList) (fname : String) : String :=
  match getByName tags "attr" with
  | some t => t.Param
  | none => fname

/-- The first byte of the UTF-8 encoding of a character, as Go's fname[0]
reads it: the code point itself below 0x80, otherwise the lead byte of the
2-, 3- or 4-byte encoding. -/
def utf8LeadByte (c : Char) : Nat :=
  let n := c.toNat
  if n < 128 then n
  else if n < 2048 then 192 + n / 64
  else if n < 65536 then 224 + n / 4096
  else 240 + n / 262144

/-- unicode.IsUpper on a code point below 0x100 (the range a single byte
widened to a rune can produce): the uppercase letters are A-Z (0x41-0x5A)
and the Latin-1 ranges 0xC0-0xD6 and 0xD8-0xDE. -/
def latin1Upper (b : Nat) : Bool :=
  (65 ≤ b && b ≤ 90) || (192 ≤ b && b ≤ 214) || (216 ≤ b && b ≤ 222)

/-- unicode.IsUpper(rune(fname[0])) for a non-empty name: Go indexes the
first BYTE of the UTF-8 encoding and widens it to a rune, so a multi-byte
first character is judged by its lead byte (a name starting with a 2-byte
character whose lead byte is 0xC2-0xD6 or 0xD8-0xDE counts as uppercase).
Go's index-out-of-range fault on an empty name is modeled separately in
fieldsLoop; the empty case here is unreachable from it. -/
def firstUpper (s : String) : Bool :=
  match s.data with
  | [] => false
  | c :: _ => latin1Upper (utf8LeadByte c)

mutual
/-- Validate (validator.go): dereference a non-nil pointer and recurse;
report a non-struct top value under the "_summary" key; otherwise walk the
fields.  A Go panic raised below (a rule's reflect fault) unwinds the whole
call and is modeled by the Except error. -/
def Validate (reg : Registry) : Value → Except String ErrorMap
  | .vptr u => Validate reg u
  | .vstruct _ fs => fieldsLoop reg fs []
  | _ => .ok (emInsert [] "_summary" .unsupported)
termination_by structural v => v

/-- The field loop of Validate, carrying the ErrorMap built so far.  For each
field: dereference; skip on the "-" sentinel or an empty tag on a non-struct;
a parse error is recorded under the declared name; the attr alias then
renames; a struct field is recursed into only when the (possibly aliased)
name starts uppercase, its nested map merged under dotted keys; any other
field goes through valid, and only the first element of a returned
ErrorArray is recorded.  Evaluating rune(fname[0]) in the struct branch
faults with an index-out-of-range panic when the display name is empty (an
attr directive with an empty parameter); the model makes that fault
explicit before the uppercase test.  The source calls Validate on the
dereferenced field value; Validate strips pointer wrappers itself, so the
model passes the field value unchanged. -/
def fieldsLoop (reg : Registry) : Fields → ErrorMap → Except String ErrorMap
  | .fnil, m => .ok m
  | .fcons fname tg fv rest, m =>
    let f := deref fv
    if tg == "-" || (tg == "" && !isStructV f) then fieldsLoop reg rest m
    else
      match parseTags tg with
      | (_, some e) => fieldsLoop reg rest (emInsert m fname e)
      | (tags, none) =>
        let d := displayName tags fname
        if isStructV f then
          if d == "" then
            .error "runtime error: index out of range [0] with length 0"
          else if !firstUpper d then fieldsLoop reg rest m
          else
            match Validate reg fv with
            | .error p => .error p
            | .ok e =>
              fieldsLoop reg rest (e.foldl (fun acc jk => emInsert acc (d ++ "." ++ jk.1) jk.2) m)
        else
          match valid reg f tags with
          | .panicked p => .error p
          | .ok => fieldsLoop reg rest m
          | .hard er => fieldsLoop reg rest (emInsert m d er)
          | .arr [] => fieldsLoop reg rest m
          | .arr (e :: _) => fieldsLoop reg rest (emInsert m d e)
termination_by structural fs => fs
end

/- ---------------- registry configuration ------------------------------- -/

/-- Go map delete(m, name). -/
def eraseFunc (reg : Registry) (name : String) : Registry :=
  reg.filter (fun p => !(p.1 == name))

/-- Go map assignment m[name] = f: overwrite or append. -/
def insertFunc (reg : Registry) (name : String) (f : RuleFn) : Registry :=
  if reg.any (fun p => p.1 == name) then
    reg.map (fun p => if p.1 == name then (name, f) else p)
  else reg ++ [(name, f)]

/-- SetValidationFunc (validator.go): an empty name fails with
errors.New("name cannot be empty") before the map is touched; a nil function
removes the entry; otherwise the entry is set.  The Go method mutates the
receiver's map and returns only the error; the model returns the error
message and the resulting registry. -/
def SetValidationFunc (reg : Registry) (name : String) (vf : Option RuleFn) :
    Option String × Registry :=
  if name == "" then (some "name cannot be empty", reg)
  else
    match vf with
    | none => (none, eraseFunc reg name)
    | some f => (none, insertFunc reg name f)

/- ---------------- auxiliary notions used by the theorems --------------- -/

/-- Whether a rule call panicked. -/
def isPanicRule : RuleRes → Bool
  | .panicR _ => true
  | _ => false

/-- String kind test. -/
def isStrV : Value → Bool
  | .vstr _ => true
  | _ => false

/-- The kinds min and max support (within the modeled subset): string, int. -/
def minMaxSupported : Value → Bool
  | .vstr _ => true
  | .vint _ => true
  | _ => false

/-- Every tag name is either registered or reserved, so validateVar reaches
no unknown-tag hard stop. -/
def tagsKnown (reg : Registry) (ts : List tag) : Bool :=
  ts.all (fun t => (lookupFunc reg t.Name).isSome || reservedName t.Name)

/-- No registered rule named by the tags panics on this value. -/
def noPanicTags (reg : Registry) (v : Value) (ts : List tag) : Bool :=
  ts.all (fun t =>
    match lookupFunc reg t.Name with
    | some fn => !isPanicRule (fn v t.Param)
    | none => true)

/-- The error one tag contributes to the accumulated ErrorArray: the
dispatched rule's error, with the msg_ override applied (the override is
looked up in the full tag list). -/
def ruleErrOf (reg : Registry) (v : Value) (tags : tagList) (t : tag) : Option VErr :=
  match lookupFunc reg t.Name with
  | some fn =>
    match fn v t.Param with
    | .errR e => some (applyMsg tags t e)
    | _ => none
  | none => none

/-- All rule errors of a tag list, in directive order. -/
def accumulated (reg : Registry) (v : Value) (tags : tagList) : List VErr :=
  tags.filterMap (ruleErrOf reg v tags)

/-- Modelled from the spec: the value-validator loop of section 4.3, in which
a directive whose name is reserved (attr or msg_-prefixed) is skipped without
a registry lookup and is never dispatched.  Used as the comparison point for
the claim that reserved names are inert; the source function validateVar
skips them only when the lookup fails. -/
def validateVarSpecAux (reg : Registry) (v : Value) (tags : tagList) :
    List tag → List VErr → VRes
  | [], errs => if errs.isEmpty then .ok else .arr errs
  | t :: ts, errs =>
    if reservedName t.Name then validateVarSpecAux reg v tags ts errs
    else
      match lookupFunc reg t.Name with
      | none => .hard .unknownTag
      | some fn =>
        match fn v t.Param with
        | .okR => validateVarSpecAux reg v tags ts errs
        | .errR e => validateVarSpecAux reg v tags ts (errs ++ [applyMsg tags t e])
        | .panicR msg => .panicked msg

/-- Modelled from the spec: entry point of the section 4.3 loop. -/
def validateVarSpec (reg : Registry) (v : Value) (tags : tagList) : VRes :=
  validateVarSpecAux reg v tags tags []

/-- Re-quoting of a parameter for the round-trip property: single-quote a
parameter that contains a comma, as the spec's section 8 prescribes. -/
def quoteParam (p : String) : String :=
  if p.data.contains ',' then ⟨[quoteCh]⟩ ++ p ++ ⟨[quoteCh]⟩ else p

/-- One re-joined directive: name=param with the param re-quoted. -/
def segOf (t : tag) : String :=
  t.Name ++ "=" ++ quoteParam t.Param

/-- Re-join a parsed directive list with = and , as the round-trip property
prescribes. -/
def rejoinTags : tagList → String
  | [] => ""
  | [t] => segOf t
  | t :: rest => segOf t ++ "," ++ rejoinTags rest

/-- Parse-output invariant: a tag produced by a successful parseTags has a
non-empty name, both components drawn from the [^'=] class, and both
components space-trimmed. -/
def goodTag (t : tag) : Prop :=
  t.Name ≠ "" ∧ (∀ c ∈ t.Name.data, nameChar c = true) ∧ trimSp t.Name.data = t.Name.data ∧
    (∀ c ∈ t.Param.data, nameChar c = true) ∧ trimSp t.Param.data = t.Param.data

/-- Concrete registry used by witnesses: the min and max builtins. -/
def regMinMax : Registry := [("min", min), ("max", max)]

/- ======================= theorems ====================================== -/

/-- C8: SetValidationFunc with the empty name fails with the bad-parameter
error message "name cannot be empty" and returns the registry completely
unchanged, for every function argument including nil. -/
theorem c8_register_empty_name (reg : Registry) (vf : Option RuleFn) :
    SetValidationFunc reg "" vf = (some "name cannot be empty", reg) := rfl

/-- C3 counterexample: a directive named attr (or msg_-prefixed) IS
dispatched as a rule function when a function is registered under that name:
with "attr" bound to an always-failing rule, validateVar on the single
directive attr=x dispatches it and reports its error, and likewise for a
registered "msg_min". -/
theorem c3_reserved_dispatched_counterexample :
    validateVar [("attr", fun _ _ => .errR (.customMsg "boom"))] (.vint 0)
        [⟨"attr", "x"⟩] = .arr [.customMsg "boom"] ∧
      validateVar [("msg_min", fun _ _ => .errR (.customMsg "boom"))] (.vint 0)
        [⟨"msg_min", "x"⟩] = .arr [.customMsg "boom"] :=
  ⟨rfl, rfl⟩

/-- Helper for C3: as long as no reserved name is bound in the registry, the
source loop (lookup first, skip reserved only on a failed lookup) agrees
with the spec loop (skip reserved names without ever looking them up). -/
theorem validateVarAux_spec_eq (reg : Registry) (v : Value) (tags : tagList) :
    ∀ (ts : List tag) (errs : List VErr),
      (∀ t ∈ ts, reservedName t.Name = true → lookupFunc reg t.Name = none) →
      validateVarAux reg v tags ts errs = validateVarSpecAux reg v tags ts errs := by
  intro ts
  induction ts with
  | nil => intro errs _; rfl
  | cons t ts ih =>
    intro errs h
    have htail : ∀ u ∈ ts, reservedName u.Name = true → lookupFunc reg u.Name = none :=
      fun u hu => h u (List.mem_cons_of_mem t hu)
    cases hr : reservedName t.Name with
    | true =>
      have hl : lookupFunc reg t.Name = none := h t (List.mem_cons_self t ts) hr
      have hr' : (hasMsgPrefix t.Name || t.Name == "attr") = true := hr
      simp only [validateVarAux, validateVarSpecAux, hl, hr, hr', if_true]
      exact ih errs htail
    | false =>
      have hr' : (hasMsgPrefix t.Name || t.Name == "attr") = false := hr
      cases hl : lookupFunc reg t.Name with
      | none => simp [validateVarAux, validateVarSpecAux, hl, hr, hr']
      | some fn =>
        cases hres : fn v t.Param with
        | okR =>
          simp only [validateVarAux, validateVarSpecAux, hl, hr, hr', hres,
            Bool.false_eq_true, if_false]
          exact ih errs htail
        | errR e =>
          simp only [validateVarAux, validateVarSpecAux, hl, hr, hr', hres,
            Bool.false_eq_true, if_false]
          exact ih _ htail
        | panicR m =>
          simp [validateVarAux, validateVarSpecAux, hl, hr, hr', hres]

/-- C3 amended: a directive named attr or msg_-prefixed is never dispatched
PROVIDED no function is registered under such a name; validateVar then
coincides with the spec-side loop that skips reserved directives without a
lookup.  (The counterexample shows the proviso is necessary: a function
registered under a reserved name is dispatched.) -/
theorem c3_reserved_inert_amended (reg : Registry) (v : Value) (tags : tagList)
    (h : ∀ t ∈ tags, reservedName t.Name = true → lookupFunc reg t.Name = none) :
    validateVar reg v tags = validateVarSpec reg v tags :=
  validateVarAux_spec_eq reg v tags tags [] h

/-- C3 amended, witness: with only min and max registered, a list carrying
attr and msg_min metadata validates identically to the spec-side loop. -/
theorem c3_reserved_inert_witness :
    validateVar regMinMax (.vint 1) [⟨"min", "3"⟩, ⟨"attr", "x"⟩, ⟨"msg_min", "Y"⟩] =
      validateVarSpec regMinMax (.vint 1) [⟨"min", "3"⟩, ⟨"attr", "x"⟩, ⟨"msg_min", "Y"⟩] := by
  apply c3_reserved_inert_amended
  intro t ht hr
  simp only [List.mem_cons, List.not_mem_nil, or_false] at ht
  rcases ht with rfl | rfl | rfl
  · exact absurd hr (by decide)
  · rfl
  · rfl

/-- A successful tagRegexp match needs a literal equals sign. -/
theorem matchAt_eq_mem {s : List Char} {x : List Char × List Char × List Char}
    (h : matchAt s = some x) : '=' ∈ s := by
  unfold matchAt at h
  by_cases he : (s.takeWhile nameChar).isEmpty
  · simp [he] at h
  · simp only [he, if_false, Bool.false_eq_true] at h
    cases hd : s.dropWhile nameChar with
    | nil => rw [hd] at h; exact absurd h (by simp)
    | cons c rest =>
      rw [hd] at h
      by_cases hc : c = '='
      · subst hc
        have : '=' ∈ s.dropWhile nameChar := by rw [hd]; exact List.mem_cons_self _ _
        exact (List.dropWhile_sublist nameChar).mem this
      · cases c; simp_all

/-- On input with no equals sign the scan finds no match at any position. -/
theorem findAllAux_no_eq : ∀ (f : Nat) (s : List Char), '=' ∉ s → findAllAux f s = [] := by
  intro f
  induction f with
  | zero => intro s _; cases s <;> rfl
  | succ f ih =>
    intro s hs
    cases s with
    | nil => rfl
    | cons c rest =>
      cases hm : matchAt (c :: rest) with
      | some x => exact absurd (matchAt_eq_mem hm) hs
      | none =>
        simp only [findAllAux, hm]
        exact ih rest (fun hmem => hs (List.mem_cons_of_mem c hmem))

/-- C9: an annotation string with no equals sign (a bare word such as
"required") parses to the empty directive list with no error, and
validateVar against the empty directive list returns no error for every
value and registry — the malformed constraint is silently ignored. -/
theorem c9_no_equals_ignored (t : String) (reg : Registry) (v : Value)
    (h : '=' ∉ t.data) :
    parseTags t = ([], none) ∧ validateVar reg v [] = .ok := by
  refine ⟨?_, rfl⟩
  unfold parseTags findAll
  rw [findAllAux_no_eq t.data.length t.data h]
  rfl

/-- C9 witness: the bare word "required" on an int with an empty registry. -/
theorem c9_no_equals_witness :
    parseTags "required" = ([], none) ∧ validateVar [] (.vint 0) [] = .ok :=
  c9_no_equals_ignored "required" [] (.vint 0) (by decide)

/-- Every name in a buildTags result survived the non-empty check. -/
theorem buildTags_names_ne :
    ∀ (ms : List (List Char × List Char)) (l : tagList) (oe : Option VErr),
      buildTags ms = (l, oe) → ∀ tg ∈ l, tg.Name ≠ "" := by
  intro ms
  induction ms with
  | nil =>
    intro l oe h tg htg
    simp only [buildTags] at h
    cases h
    simp at htg
  | cons p rest ih =>
    intro l oe h tg htg
    obtain ⟨g1, g2⟩ := p
    simp only [buildTags] at h
    by_cases hn : (trimSp g1).isEmpty
    · rw [if_pos hn] at h
      cases h
      simp at htg
    · rw [if_neg hn] at h
      cases hrec : buildTags rest with
      | mk l2 oe2 =>
        rw [hrec] at h
        cases oe2 with
        | some e => simp at h; cases h.1; simp at htg
        | none =>
          simp only at h
          cases h
          rcases List.mem_cons.mp htg with rfl | hmem
          · intro hcon
            apply hn
            have : (trimSp g1) = ("" : String).data := congrArg String.data hcon
            simp only [String.data] at this
            rw [this]
            rfl
          · exact ih l2 none hrec tg hmem

/-- If any extracted raw name trims to empty, the parse loop fails with
ErrUnknownTag and returns the empty list. -/
theorem buildTags_err_of_empty_name :
    ∀ (ms : List (List Char × List Char)),
      (∃ p ∈ ms, trimSp p.1 = []) → buildTags ms = ([], some .unknownTag) := by
  intro ms
  induction ms with
  | nil => intro h; exact absurd h (by simp)
  | cons p rest ih =>
    intro h
    obtain ⟨g1, g2⟩ := p
    by_cases hn : (trimSp g1).isEmpty
    · simp [buildTags, hn]
    · rcases h with ⟨q, hq, hqe⟩
      rcases List.mem_cons.mp hq with rfl | hmem
      · exact absurd (List.isEmpty_iff.mpr hqe) hn
      · have := ih ⟨q, hmem, hqe⟩
        simp [buildTags, hn, this]

/-- C6: whenever some extracted directive name trims to the empty string,
parseTags fails with the unknown-tag error and returns the empty directive
list; and no tag with an empty name is ever produced by any parse. -/
theorem c6_empty_name_fails :
    (∀ t : String, (∃ p ∈ findAll t.data, trimSp p.1 = []) →
        parseTags t = ([], some .unknownTag)) ∧
      (∀ (t : String) (l : tagList) (oe : Option VErr),
        parseTags t = (l, oe) → ∀ tg ∈ l, tg.Name ≠ "") := by
  constructor
  · intro t h
    unfold parseTags
    exact buildTags_err_of_empty_name _ h
  · intro t l oe h
    exact buildTags_names_ne _ l oe h

/-- C6 witness: the string " =v" extracts the raw name " ", which trims to
empty, so its parse fails with the unknown-tag error and the empty list. -/
theorem c6_empty_name_witness : parseTags " =v" = ([], some .unknownTag) :=
  c6_empty_name_fails.1 " =v" ⟨([' '], ['v']), by decide, by decide⟩

/-- The dereference loop never returns a non-nil pointer. -/
theorem deref_not_vptr : ∀ (v u : Value), deref v ≠ .vptr u
  | .vptr w, u => by
    have := deref_not_vptr w u
    simpa [deref] using this
  | .vstr _, _ => by simp [deref]
  | .vint _, _ => by simp [deref]
  | .vbool _, _ => by simp [deref]
  | .vptrNil, _ => by simp [deref]
  | .vinvalid, _ => by simp [deref]
  | .vstruct _ _, _ => by simp [deref]

/-- On a fully dereferenced non-struct value, valid is exactly validateVar
(the invalid value is passed through as the nil the source hands over). -/
theorem valid_eq_validateVar (reg : Registry) (tags : tagList) (f : Value)
    (hp : ∀ u, f ≠ .vptr u) (hs : isStructV f = false) :
    valid reg f tags = validateVar reg f tags := by
  cases f with
  | vptr u => exact absurd rfl (hp u)
  | vstruct tn fs => simp [isStructV] at hs
  | vstr t => rfl
  | vint n => rfl
  | vbool b => rfl
  | vptrNil => rfl
  | vinvalid => rfl

/-- Unfolding of the field loop on a non-struct field that is not skipped
and whose annotation parses. -/
theorem fieldsLoop_scalar (reg : Registry) (fname tg : String) (fv : Value)
    (post : Fields) (m : ErrorMap) (tags : tagList)
    (hdash : (tg == "-") = false) (hempty : (tg == "") = false)
    (hp : parseTags tg = (tags, none)) (hstruct : isStructV (deref fv) = false) :
    fieldsLoop reg (.fcons fname tg fv post) m =
      (match valid reg (deref fv) tags with
       | .panicked p => .error p
       | .ok => fieldsLoop reg post m
       | .hard er => fieldsLoop reg post (emInsert m (displayName tags fname) er)
       | .arr [] => fieldsLoop reg post m
       | .arr (e :: _) => fieldsLoop reg post (emInsert m (displayName tags fname) e)) := by
  simp only [fieldsLoop, hp, hstruct, hdash, hempty, Bool.not_false, Bool.and_true,
    Bool.false_or, Bool.or_self, Bool.false_eq_true, if_false]

/-- The validateVar loop computes exactly the accumulated rule errors, in
directive order, when every name is registered or reserved and no dispatched
rule panics: one failing rule never stops the evaluation of the rest. -/
theorem validateVarAux_acc (reg : Registry) (v : Value) (tags : tagList) :
    ∀ (ts : List tag) (errs : List VErr),
      tagsKnown reg ts = true → noPanicTags reg v ts = true →
      validateVarAux reg v tags ts errs =
        (if (errs ++ ts.filterMap (ruleErrOf reg v tags)).isEmpty then .ok
         else .arr (errs ++ ts.filterMap (ruleErrOf reg v tags))) := by
  intro ts
  induction ts with
  | nil => intro errs _ _; simp [validateVarAux]
  | cons t ts ih =>
    intro errs hk hnp
    rw [tagsKnown, List.all_cons, Bool.and_eq_true] at hk
    rw [noPanicTags, List.all_cons, Bool.and_eq_true] at hnp
    obtain ⟨hk1, hk2⟩ := hk
    obtain ⟨hnp1, hnp2⟩ := hnp
    cases hl : lookupFunc reg t.Name with
    | none =>
      have hr : (hasMsgPrefix t.Name || t.Name == "attr") = true := by
        rw [hl] at hk1; simpa [reservedName] using hk1
      have hre : ruleErrOf reg v tags t = none := by simp [ruleErrOf, hl]
      simp only [validateVarAux, hl, hr, if_true, List.filterMap_cons, hre]
      exact ih errs hk2 hnp2
    | some fn =>
      cases hres : fn v t.Param with
      | okR =>
        have hre : ruleErrOf reg v tags t = none := by simp [ruleErrOf, hl, hres]
        simp only [validateVarAux, hl, hres, List.filterMap_cons, hre]
        exact ih errs hk2 hnp2
      | errR e =>
        have hre : ruleErrOf reg v tags t = some (applyMsg tags t e) := by
          simp [ruleErrOf, hl, hres]
        simp only [validateVarAux, hl, hres, List.filterMap_cons, hre]
        rw [ih (errs ++ [applyMsg tags t e]) hk2 hnp2]
        simp
      | panicR msg =>
        rw [hl] at hnp1
        simp only [hres, isPanicRule, Bool.not_true] at hnp1
        cases hnp1

/-- C1: with every directive name registered (or reserved and unregistered)
and no dispatched rule panicking, validateVar evaluates every directive even
after failures — it returns exactly the ErrorArray of all accumulated rule
errors, each with its msg_ override applied — and the record traversal
records only the first element of that array as the field's single reported
error in the Error Map. -/
theorem c1_accumulate_first_reported (reg : Registry) (tags : tagList)
    (h1 : tagsKnown reg tags = true) :
    (∀ v : Value, noPanicTags reg v tags = true →
      validateVar reg v tags =
        (if (accumulated reg v tags).isEmpty then .ok
         else .arr (accumulated reg v tags))) ∧
      (∀ (tn fname tg : String) (fv : Value),
        parseTags tg = (tags, none) → ¬(tg = "-") → ¬(tg = "") →
        isStructV (deref fv) = false → noPanicTags reg (deref fv) tags = true →
        Validate reg (.vstruct tn (.fcons fname tg fv .fnil)) =
          .ok (match accumulated reg (deref fv) tags with
               | [] => []
               | e :: _ => [(displayName tags fname, e)])) := by
  have hmain : ∀ v : Value, noPanicTags reg v tags = true →
      validateVar reg v tags =
        (if (accumulated reg v tags).isEmpty then .ok
         else .arr (accumulated reg v tags)) := by
    intro v hnp
    unfold validateVar accumulated
    simpa using validateVarAux_acc reg v tags tags [] h1 hnp
  refine ⟨hmain, ?_⟩
  intro tn fname tg fv hp hdash hempty hstruct hnp
  have hdashb : (tg == "-") = false := by simpa using hdash
  have hemptyb : (tg == "") = false := by simpa using hempty
  simp only [Validate]
  rw [fieldsLoop_scalar reg fname tg fv .fnil [] tags hdashb hemptyb hp hstruct]
  rw [valid_eq_validateVar reg tags (deref fv) (deref_not_vptr fv) hstruct]
  rw [hmain (deref fv) hnp]
  cases hacc : accumulated reg (deref fv) tags with
  | nil => simp [fieldsLoop]
  | cons e rest => simp [fieldsLoop, emInsert, emHasKey]

/-- C1 witness: min=3 with a msg_min template and max=0 on the value 1 —
both failures are accumulated (the later max failure too), the msg_min
override is applied, and the Error Map reports only the first element. -/
theorem c1_accumulate_first_witness :
    accumulated regMinMax (.vint 1) [⟨"min", "3"⟩, ⟨"msg_min", "A\x7bparam\x7dB"⟩, ⟨"max", "0"⟩] =
        [.customMsg "A3B", .errMax] ∧
      Validate regMinMax
          (.vstruct "T" (.fcons "F" "min=3,msg_min=A\x7bparam\x7dB,max=0" (.vint 1) .fnil)) =
        .ok [("F", .customMsg "A3B")] := by
  constructor
  · decide
  · exact (c1_accumulate_first_reported regMinMax
      [⟨"min", "3"⟩, ⟨"msg_min", "A\x7bparam\x7dB"⟩, ⟨"max", "0"⟩] (by decide)).2
      "T" "F" "min=3,msg_min=A\x7bparam\x7dB,max=0" (.vint 1)
      (by decide) (by decide) (by decide) (by decide) (by decide)

/-- An unregistered, unreserved name makes the whole validateVar loop return
the unknown-tag hard error, discarding whatever was accumulated before. -/
theorem validateVarAux_unknown (reg : Registry) (v : Value) (tags : tagList) :
    ∀ (ts : List tag) (errs : List VErr),
      (∃ t ∈ ts, reservedName t.Name = false ∧ (lookupFunc reg t.Name).isNone = true) →
      noPanicTags reg v ts = true →
      validateVarAux reg v tags ts errs = .hard .unknownTag := by
  intro ts
  induction ts with
  | nil => intro errs hex _; exact absurd hex (by simp)
  | cons t ts ih =>
    intro errs hex hnp
    rw [noPanicTags, List.all_cons, Bool.and_eq_true] at hnp
    obtain ⟨hnp1, hnp2⟩ := hnp
    cases hl : lookupFunc reg t.Name with
    | none =>
      cases hr : reservedName t.Name with
      | false =>
        have hr' : (hasMsgPrefix t.Name || t.Name == "attr") = false := hr
        simp [validateVarAux, hl, hr']
      | true =>
        have hr' : (hasMsgPrefix t.Name || t.Name == "attr") = true := hr
        simp only [validateVarAux, hl, hr', if_true]
        apply ih errs ?_ hnp2
        rcases hex with ⟨u, hu, hu1, hu2⟩
        rcases List.mem_cons.mp hu with rfl | hmem
        · rw [hr] at hu1; cases hu1
        · exact ⟨u, hmem, hu1, hu2⟩
    | some fn =>
      have hex2 : ∃ u ∈ ts, reservedName u.Name = false ∧ (lookupFunc reg u.Name).isNone = true := by
        rcases hex with ⟨u, hu, hu1, hu2⟩
        rcases List.mem_cons.mp hu with rfl | hmem
        · rw [hl] at hu2; cases hu2
        · exact ⟨u, hmem, hu1, hu2⟩
      cases hres : fn v t.Param with
      | okR => simp only [validateVarAux, hl, hres]; exact ih errs hex2 hnp2
      | errR e => simp only [validateVarAux, hl, hres]; exact ih _ hex2 hnp2
      | panicR msg =>
        rw [hl] at hnp1
        simp only [hres, isPanicRule, Bool.not_true] at hnp1
        cases hnp1

/-- C5: a directive naming a rule absent from the registry (and not an attr
or msg_ directive) makes the whole validation of that field return the
unknown-tag error immediately, with no accumulated errors reported; the
field loop records it and proceeds to the remaining fields unchanged, so the
other fields' results still reach the Error Map. -/
theorem c5_unknown_tag_isolated (reg : Registry) (tags : tagList)
    (hex : ∃ t ∈ tags, reservedName t.Name = false ∧ (lookupFunc reg t.Name).isNone = true) :
    (∀ v : Value, noPanicTags reg v tags = true →
      validateVar reg v tags = .hard .unknownTag) ∧
      (∀ (fname tg : String) (fv : Value) (post : Fields) (m : ErrorMap),
        parseTags tg = (tags, none) → isStructV (deref fv) = false →
        noPanicTags reg (deref fv) tags = true →
        fieldsLoop reg (.fcons fname tg fv post) m =
          fieldsLoop reg post (emInsert m (displayName tags fname) .unknownTag)) := by
  have hmain : ∀ v : Value, noPanicTags reg v tags = true →
      validateVar reg v tags = .hard .unknownTag := by
    intro v hnp
    exact validateVarAux_unknown reg v tags tags [] hex hnp
  refine ⟨hmain, ?_⟩
  intro fname tg fv post m hp hstruct hnp
  have hne : tags ≠ [] := by
    rintro rfl
    rcases hex with ⟨t, ht, _⟩
    simp at ht
  have hdashb : (tg == "-") = false := by
    have : ¬(tg = "-") := by
      rintro rfl
      rw [show parseTags "-" = (([] : tagList), none) from by decide] at hp
      exact hne (congrArg Prod.fst hp).symm
    simpa using this
  have hemptyb : (tg == "") = false := by
    have : ¬(tg = "") := by
      rintro rfl
      rw [show parseTags "" = (([] : tagList), none) from by decide] at hp
      exact hne (congrArg Prod.fst hp).symm
    simpa using this
  rw [fieldsLoop_scalar reg fname tg fv post m tags hdashb hemptyb hp hstruct]
  rw [valid_eq_validateVar reg tags (deref fv) (deref_not_vptr fv) hstruct]
  rw [hmain (deref fv) hnp]

/-- C5 witness: foo is unregistered, so field A reports unknown tag while
field B is still validated and lands in the map. -/
theorem c5_unknown_tag_witness :
    validateVar regMinMax (.vint 1) [⟨"foo", "bar"⟩] = .hard .unknownTag ∧
      fieldsLoop regMinMax
          (.fcons "A" "foo=bar" (.vint 1) (.fcons "B" "min=3" (.vint 1) .fnil)) [] =
        .ok [("A", .unknownTag), ("B", .errMin)] := by
  have h := c5_unknown_tag_isolated regMinMax [⟨"foo", "bar"⟩]
    ⟨⟨"foo", "bar"⟩, by decide, by decide, by decide⟩
  constructor
  · exact h.1 (.vint 1) (by decide)
  · rw [h.2 "A" "foo=bar" (.vint 1) (.fcons "B" "min=3" (.vint 1) .fnil) []
      (by decide) (by decide) (by decide)]
    decide

/-- Unfolding of the field loop on a struct-valued field that is not
skipped and whose annotation parses. -/
theorem fieldsLoop_struct (reg : Registry) (fname tg : String) (fv : Value)
    (post : Fields) (m : ErrorMap) (tags : tagList)
    (hdash : (tg == "-") = false) (hp : parseTags tg = (tags, none))
    (hstruct : isStructV (deref fv) = true)
    (hde : (displayName tags fname == "") = false) :
    fieldsLoop reg (.fcons fname tg fv post) m =
      (if !firstUpper (displayName tags fname) then fieldsLoop reg post m
       else
        match Validate reg fv with
        | .error p => .error p
        | .ok e =>
          fieldsLoop reg post (e.foldl (fun acc jk =>
            emInsert acc (displayName tags fname ++ "." ++ jk.1) jk.2) m)) := by
  simp only [fieldsLoop, hp, hstruct, hdash, hde, Bool.not_true, Bool.and_false,
    Bool.or_false, Bool.false_eq_true, if_false, if_true, eq_self_iff_true]

/-- C2 counterexample: the recursion decision is NOT made on the declared
name.  The field is declared "Inner" (uppercase, exported) but carries
attr=lower; the traversal skips it entirely, where the claim requires
recursion: the map is empty, while the same field without the alias is
recursed into and produces Inner.Min. -/
theorem c2_alias_visibility_counterexample :
    Validate regMinMax (.vstruct "T" (.fcons "Inner" "attr=lower"
        (.vstruct "U" (.fcons "Min" "min=3" (.vint 1) .fnil)) .fnil)) = .ok [] ∧
      Validate regMinMax (.vstruct "T" (.fcons "Inner" ""
          (.vstruct "U" (.fcons "Min" "min=3" (.vint 1) .fnil)) .fnil)) =
        .ok [("Inner.Min", .errMin)] := by
  exact ⟨by decide, by decide⟩

/-- C2 amended: the traversal's decision on a record-shaped field is made
on the DISPLAY name — the attr alias when present, the declared name
otherwise — not on the declared name: an empty display name faults the
whole validation (Go's index-out-of-range panic reading fname[0]); otherwise
the field is recursed into if and only if the first byte of the display
name, read as a rune, is uppercase under unicode.IsUpper, and is silently
skipped when it is not. -/
theorem c2_recursion_on_display_name (reg : Registry) (tn tn2 fname tg : String)
    (gs : Fields) (tags : tagList)
    (hp : parseTags tg = (tags, none)) (hdash : ¬(tg = "-")) :
    Validate reg (.vstruct tn (.fcons fname tg (.vstruct tn2 gs) .fnil)) =
      (if displayName tags fname = "" then
        .error "runtime error: index out of range [0] with length 0"
      else if firstUpper (displayName tags fname) then
        (Validate reg (.vstruct tn2 gs)).map
          (fun e => e.foldl (fun acc jk =>
            emInsert acc (displayName tags fname ++ "." ++ jk.1) jk.2) [])
      else .ok []) := by
  have hdashb : (tg == "-") = false := by simpa using hdash
  have hstruct : isStructV (deref (Value.vstruct tn2 gs)) = true := rfl
  have hL : Validate reg (.vstruct tn (.fcons fname tg (.vstruct tn2 gs) .fnil)) =
      fieldsLoop reg (.fcons fname tg (.vstruct tn2 gs) .fnil) [] := rfl
  by_cases hd : displayName tags fname = ""
  · have hdb : (displayName tags fname == "") = true := by simpa using hd
    rw [hL, if_pos hd]
    simp only [fieldsLoop, hp, hstruct, hdashb, hdb, Bool.not_true, Bool.and_false,
      Bool.or_false, Bool.false_eq_true, if_false, if_true, eq_self_iff_true]
  · have hdb : (displayName tags fname == "") = false := by simpa using hd
    rw [hL, if_neg hd,
      fieldsLoop_struct reg fname tg _ .fnil [] tags hdashb hp hstruct hdb]
    cases hup : firstUpper (displayName tags fname) with
    | false => simp [fieldsLoop]
    | true =>
      simp only [Bool.not_true, Bool.false_eq_true, if_false, if_true]
      cases hv : Validate reg (.vstruct tn2 gs) with
      | error p => simp [hv, Except.map]
      | ok e => simp [hv, Except.map, fieldsLoop]

/-- C2 amended, witness: the exported-named field with a lowercase alias is
skipped; a lowercase-declared field with the alias Upper is recursed into;
with the alias Ärger it is also recursed into — the first UTF-8 byte 0xC3
widened to a rune is uppercase, matching Go's byte-level check — and an
empty alias faults the validation like Go's index panic. -/
theorem c2_recursion_on_display_witness :
    Validate regMinMax (.vstruct "T" (.fcons "Inner" "attr=lower"
        (.vstruct "U" (.fcons "Min" "min=3" (.vint 1) .fnil)) .fnil)) = .ok [] ∧
      Validate regMinMax (.vstruct "T" (.fcons "inner" "attr=Upper"
          (.vstruct "U" (.fcons "Min" "min=3" (.vint 1) .fnil)) .fnil)) =
        .ok [("Upper.Min", .errMin)] ∧
      Validate regMinMax (.vstruct "T" (.fcons "inner" "attr=Ärger"
          (.vstruct "U" (.fcons "Min" "min=3" (.vint 1) .fnil)) .fnil)) =
        .ok [("Ärger.Min", .errMin)] ∧
      Validate regMinMax (.vstruct "T" (.fcons "Inner" "attr="
          (.vstruct "U" (.fcons "Min" "min=3" (.vint 1) .fnil)) .fnil)) =
        .error "runtime error: index out of range [0] with length 0" := by
  refine ⟨?_, ?_, ?_, ?_⟩
  · exact c2_recursion_on_display_name regMinMax "T" "U" "Inner" "attr=lower"
      (.fcons "Min" "min=3" (.vint 1) .fnil) [⟨"attr", "lower"⟩]
      (by decide) (by decide)
  · exact c2_recursion_on_display_name regMinMax "T" "U" "inner" "attr=Upper"
      (.fcons "Min" "min=3" (.vint 1) .fnil) [⟨"attr", "Upper"⟩]
      (by decide) (by decide)
  · exact c2_recursion_on_display_name regMinMax "T" "U" "inner" "attr=Ärger"
      (.fcons "Min" "min=3" (.vint 1) .fnil) [⟨"attr", "Ärger"⟩]
      (by decide) (by decide)
  · exact c2_recursion_on_display_name regMinMax "T" "U" "Inner" "attr="
      (.fcons "Min" "min=3" (.vint 1) .fnil) [⟨"attr", ""⟩]
      (by decide) (by decide)

/-- A base64 candidate whose first character is outside the alphabet never
matches regexpBase64. -/
theorem b64Valid_not_head (c : Char) (hc : b64Char c = false) :
    ∀ rest : List Char, b64Valid (c :: rest) = false := by
  intro rest
  unfold b64Valid
  split <;> simp_all

theorem rfc3339Valid_of_head (s : String) (c : Char) (rest : List Char)
    (hdata : s.data = c :: rest) (hc : isDig c = false) : rfc3339Valid s = false := by
  unfold rfc3339Valid
  rw [hdata]
  split <;> simp_all

theorem goString_head (v : Value) (hv : isStrV v = false) :
    ∃ rest : List Char, (goString v).data = '<' :: rest := by
  cases v with
  | vstr s => simp [isStrV] at hv
  | vint n => exact ⟨"int Value>".data, rfl⟩
  | vbool b => exact ⟨"bool Value>".data, rfl⟩
  | vptrNil => exact ⟨"ptr Value>".data, rfl⟩
  | vptr u => exact ⟨"ptr Value>".data, rfl⟩
  | vinvalid => exact ⟨"invalid Value>".data, rfl⟩
  | vstruct tn fs =>
    refine ⟨tn.data ++ " Value>".data, ?_⟩
    simp [goString, String.data_append]

/-- C7 counterexample: typeValid on the invalid value with an unrecognized
format parameter returns the bad-parameter error, which is neither the
unsupported-type nor an invalid-value-class error; and notZero can panic: on
a struct whose type name contains "null" but whose Valid field is a string,
the unchecked reflect.Value.Bool accessor faults. -/
theorem c7_counterexample :
    typeValid .vinvalid "xyz" = .errR .badParameter ∧
      (VErr.badParameter ≠ VErr.unsupported ∧ VErr.badParameter ≠ VErr.invalid ∧
        VErr.badParameter ≠ VErr.invalidValue ∧ VErr.badParameter ≠ VErr.invalidTypedValue) ∧
      notZero (.vstruct "a.null" (.fcons "Valid" "" (.vstr "s") .fnil)) "" =
        .panicR "reflect: call of reflect.Value.Bool on string Value" ∧
      notZero .vinvalid "" = .errR .zeroValue := by
  refine ⟨by decide, by decide, by decide, by decide⟩

/-- C7 amended: the cited builtins return normal errors and do not panic,
with the classes the code actually uses — min and max return the
unsupported-type error on every unmodeled-by-them shape and never panic;
typeValid never panics, and on every non-string value returns
invalid-typed-value for the known format parameters and bad-parameter for
any other parameter; notZero never panics on non-struct values and treats
the nil/invalid value as a zero value (the counterexample shows it can
panic on null-wrapper structs with a wrongly-typed Valid field). -/
theorem c7_amended :
    (∀ (v : Value) (p : String), minMaxSupported v = false →
        min v p = .errR .unsupported ∧ max v p = .errR .unsupported) ∧
      (∀ (v : Value) (p : String), isPanicRule (min v p) = false ∧
        isPanicRule (max v p) = false ∧ isPanicRule (typeValid v p) = false) ∧
      (∀ (v : Value) (p : String), isStructV v = false →
        isPanicRule (notZero v p) = false) ∧
      (∀ (v : Value) (p : String), isStrV v = false →
        typeValid v p = .errR
          (if p = "timestamp" ∨ p = "base64" then .invalidTypedValue
           else .badParameter)) := by
  refine ⟨?_, ?_, ?_, ?_⟩
  · intro v p hv
    cases v <;> simp_all [minMaxSupported, min, max]
  · intro v p
    refine ⟨?_, ?_, ?_⟩
    · cases v <;> simp only [min] <;>
        first
          | rfl
          | (cases hA : asInt p <;> simp only [hA] <;>
              first | rfl | (split <;> rfl))
    · cases v <;> simp only [max] <;>
        first
          | rfl
          | (cases hA : asInt p <;> simp only [hA] <;>
              first | rfl | (split <;> rfl))
    · simp only [typeValid]
      split
      · split <;> rfl
      · split
        · split <;> rfl
        · rfl
  · intro v p hv
    cases v with
    | vstruct tn fs => simp [isStructV] at hv
    | vstr s => simp only [notZero]; split <;> rfl
    | vint n => simp only [notZero]; split <;> rfl
    | vbool b => simp only [notZero]; split <;> rfl
    | vptrNil => rfl
    | vptr u => rfl
    | vinvalid => rfl
  · intro v p hv
    obtain ⟨rest, hr⟩ := goString_head v hv
    have hb : b64Valid (goString v).data = false := by
      rw [hr]; exact b64Valid_not_head '<' (by decide) rest
    have hts : rfc3339Valid (goString v) = false :=
      rfc3339Valid_of_head (goString v) '<' rest hr (by decide)
    by_cases ht : p = "timestamp"
    · subst ht
      simp [typeValid, hts]
    · by_cases h64 : p = "base64"
      · subst h64
        simp [typeValid, hb]
      · have ht' : (p == "timestamp") = false := by simpa using ht
        have h64' : (p == "base64") = false := by simpa using h64
        simp [typeValid, ht', h64', ht, h64]

/-- C7 amended, witness: at concrete inputs — an unsupported bool for min
and max, base64 on an int, notZero on the invalid value. -/
theorem c7_amended_witness :
    (min (.vbool true) "x" = .errR .unsupported ∧
        max (.vbool true) "x" = .errR .unsupported) ∧
      isPanicRule (typeValid (.vint 5) "base64") = false ∧
      isPanicRule (notZero .vinvalid "") = false ∧
      typeValid (.vint 5) "base64" = .errR .invalidTypedValue := by
  refine ⟨c7_amended.1 (.vbool true) "x" (by decide),
    (c7_amended.2.1 (.vint 5) "base64").2.2,
    c7_amended.2.2.1 .vinvalid "" (by decide), ?_⟩
  have h := c7_amended.2.2.2 (.vint 5) "base64" (by decide)
  simpa using h

/-- The validateVar loop reads the registry only through lookups. -/
theorem validateVarAux_congr (reg reg' : Registry)
    (h : ∀ n, lookupFunc reg n = lookupFunc reg' n) (v : Value) (tags : tagList) :
    ∀ (ts : List tag) (errs : List VErr),
      validateVarAux reg v tags ts errs = validateVarAux reg' v tags ts errs := by
  intro ts
  induction ts with
  | nil => intro errs; rfl
  | cons t ts ih =>
    intro errs
    simp only [validateVarAux, h t.Name]
    cases hl : lookupFunc reg' t.Name with
    | none =>
      simp only [hl]
      cases hr : (hasMsgPrefix t.Name || t.Name == "attr") with
      | true => simp only [hr, if_true]; exact ih errs
      | false => simp [hr]
    | some fn =>
      simp only [hl]
      cases hres : fn v t.Param with
      | okR => simp only [hres]; exact ih errs
      | errR e => simp only [hres]; exact ih _
      | panicR m => simp only [hres]

theorem validateVar_congr (reg reg' : Registry)
    (h : ∀ n, lookupFunc reg n = lookupFunc reg' n) (v : Value) (tags : tagList) :
    validateVar reg v tags = validateVar reg' v tags :=
  validateVarAux_congr reg reg' h v tags tags []

theorem valid_congr (reg reg' : Registry)
    (h : ∀ n, lookupFunc reg n = lookupFunc reg' n) :
    ∀ (v : Value) (tags : tagList), valid reg v tags = valid reg' v tags
  | .vptr u, tags => by
    have := valid_congr reg reg' h u tags
    simpa [valid] using this
  | .vstr s, tags => validateVar_congr reg reg' h _ tags
  | .vint n, tags => validateVar_congr reg reg' h _ tags
  | .vbool b, tags => validateVar_congr reg reg' h _ tags
  | .vptrNil, tags => validateVar_congr reg reg' h _ tags
  | .vinvalid, tags => validateVar_congr reg reg' h _ tags
  | .vstruct tn fs, tags => rfl

theorem validate_congr_aux (reg reg' : Registry)
    (h : ∀ n, lookupFunc reg n = lookupFunc reg' n) :
    ∀ N : Nat,
      (∀ v : Value, sizeOf v ≤ N → Validate reg v = Validate reg' v) ∧
        (∀ (fs : Fields) (m : ErrorMap), sizeOf fs ≤ N →
          fieldsLoop reg fs m = fieldsLoop reg' fs m) := by
  intro N
  induction N with
  | zero =>
    constructor
    · intro v hv
      have h1 : 0 < sizeOf v := by cases v <;> simp_arith
      omega
    · intro fs m hfs
      have h1 : 0 < sizeOf fs := by cases fs <;> simp_arith
      omega
  | succ N ih =>
    constructor
    · intro v hv
      cases v with
      | vptr u =>
        have hs : sizeOf (Value.vptr u) = 1 + sizeOf u := rfl
        simp only [Validate]
        exact ih.1 u (by omega)
      | vstruct tn fs =>
        have hs : sizeOf (Value.vstruct tn fs) = 1 + sizeOf tn + sizeOf fs := rfl
        simp only [Validate]
        exact ih.2 fs [] (by omega)
      | vstr s => rfl
      | vint n => rfl
      | vbool b => rfl
      | vptrNil => rfl
      | vinvalid => rfl
    · intro fs m hfs
      cases fs with
      | fnil => rfl
      | fcons fname tg fv rest =>
        have hs : sizeOf (Fields.fcons fname tg fv rest) =
            1 + sizeOf fname + sizeOf tg + sizeOf fv + sizeOf rest := rfl
        have hrest : sizeOf rest ≤ N := by omega
        have hfv : sizeOf fv ≤ N := by omega
        simp only [fieldsLoop]
        cases hskip : (tg == "-" || (tg == "" && !isStructV (deref fv))) with
        | true => exact ih.2 rest m hrest
        | false =>
          cases hp : parseTags tg with
          | mk tgs oe =>
            cases oe with
            | some e => exact ih.2 rest _ hrest
            | none =>
              cases hstr : isStructV (deref fv) with
              | false =>
                simp only [hstr, Bool.false_eq_true, if_false]
                rw [valid_congr reg reg' h (deref fv) tgs]
                cases hv2 : valid reg' (deref fv) tgs with
                | panicked p => rfl
                | ok => exact ih.2 rest m hrest
                | hard er => exact ih.2 rest _ hrest
                | arr l =>
                  cases l with
                  | nil => exact ih.2 rest m hrest
                  | cons e es => exact ih.2 rest _ hrest
              | true =>
                simp only [hstr, eq_self_iff_true, if_true]
                cases hd : (displayName tgs fname == "") with
                | true => rfl
                | false =>
                  simp only [hd, Bool.false_eq_true, if_false]
                  cases hup : firstUpper (displayName tgs fname) with
                  | false => exact ih.2 rest m hrest
                  | true =>
                    simp only [hup, Bool.not_true, Bool.false_eq_true, if_false]
                    rw [ih.1 fv hfv]
                    cases hV : Validate reg' fv with
                    | error p => rfl
                    | ok e => exact ih.2 rest _ hrest

/-- C10: the record traversal is a pure function of the value and the rule
registry viewed as a lookup table — two validations with registries equal
under lookup produce equal Error Maps, so validating the same record twice
with an unchanged registry yields identical results.  The embedding is pure
by construction, mirroring the source, which never writes to the registry
or the record during validation. -/
theorem c10_deterministic (reg reg' : Registry) (v : Value)
    (h : ∀ n, lookupFunc reg n = lookupFunc reg' n) :
    Validate reg v = Validate reg' v :=
  (validate_congr_aux reg reg' h (sizeOf v)).1 v le_rfl

/-- C10 witness: validating the same struct twice against the same registry
gives the same map. -/
theorem c10_deterministic_witness :
    Validate regMinMax (.vstruct "T" (.fcons "Min" "min=3" (.vint 1) .fnil)) =
      Validate regMinMax (.vstruct "T" (.fcons "Min" "min=3" (.vint 1) .fnil)) :=
  c10_deterministic regMinMax regMinMax _ (fun _ => rfl)

/-- C4 counterexample: the string x='p',a,b=c parses successfully (to the
directives x=p and "a,b"=c — the [^'=] name class admits commas), but
re-joining the parsed pairs and re-parsing yields a different directive
list, because the greedy unquoted value swallows the comma-separated name. -/
theorem c4_roundtrip_counterexample :
    (parseTags ("x=" ++ ⟨[quoteCh]⟩ ++ "p" ++ ⟨[quoteCh]⟩ ++ ",a,b=c")).2 = none ∧
      ("x=" ++ ⟨[quoteCh]⟩ ++ "p" ++ ⟨[quoteCh]⟩ ++ ",a,b=c" : String) ≠ "" ∧
      parseTags (rejoinTags (parseTags ("x=" ++ ⟨[quoteCh]⟩ ++ "p" ++ ⟨[quoteCh]⟩ ++ ",a,b=c")).1) ≠
        parseTags ("x=" ++ ⟨[quoteCh]⟩ ++ "p" ++ ⟨[quoteCh]⟩ ++ ",a,b=c") := by
  refine ⟨by decide, by decide, by decide⟩

theorem closeAfter_cons (c : Char) (rest : List Char) :
    closeAfter (c :: rest) =
      (if (c == quoteCh) = true then
        (match rest with
         | [] => some []
         | d :: rest2 => if (d == ',') = true then some rest2 else none)
       else if (c == ',') = true then some rest else none) := rfl

theorem valueMatch_cons (c : Char) (rest : List Char) :
    valueMatch (c :: rest) =
      (if nameChar c = true then
        match valueMatch rest with
        | some (g, r) => some (c :: g, r)
        | none => (closeAfter (c :: rest)).map (fun r => (([] : List Char), r))
       else (closeAfter (c :: rest)).map (fun r => (([] : List Char), r))) := rfl

theorem matchValue_cons (c : Char) (rest : List Char) :
    matchValue (c :: rest) =
      (if (c == quoteCh) = true then
        match valueMatch rest with
        | some p => some p
        | none => valueMatch (c :: rest)
       else valueMatch (c :: rest)) := rfl

theorem closeAfter_len : ∀ {s r : List Char}, closeAfter s = some r → r.length ≤ s.length := by
  intro s r h
  match s with
  | [] => simp [closeAfter] at h; simp [h]
  | c :: rest =>
    rw [closeAfter_cons] at h
    by_cases hq : (c == quoteCh) = true
    · rw [if_pos hq] at h
      match rest with
      | [] => simp at h; simp [h]
      | d :: rest2 =>
        dsimp only at h
        by_cases hd : (d == ',') = true
        · rw [if_pos hd] at h
          cases h
          simp
          omega
        · rw [if_neg hd] at h
          cases h
    · rw [if_neg hq] at h
      by_cases hc : (c == ',') = true
      · rw [if_pos hc] at h
        cases h
        simp
      · rw [if_neg hc] at h
        cases h

theorem valueMatch_len : ∀ {s g r : List Char},
    valueMatch s = some (g, r) → r.length ≤ s.length := by
  intro s
  induction s with
  | nil =>
    intro g r h
    simp [valueMatch] at h
    simp [h]
  | cons c rest ih =>
    intro g r h
    rw [valueMatch_cons] at h
    by_cases hc : nameChar c = true
    · rw [if_pos hc] at h
      cases hv : valueMatch rest with
      | some p =>
        obtain ⟨g2, r2⟩ := p
        rw [hv] at h
        dsimp only at h
        cases h
        have := ih hv
        simp
        omega
      | none =>
        rw [hv] at h
        dsimp only at h
        rcases Option.map_eq_some'.mp h with ⟨x, hx, hfx⟩
        cases hfx
        exact closeAfter_len hx
    · rw [if_neg hc] at h
      rcases Option.map_eq_some'.mp h with ⟨x, hx, hfx⟩
      cases hfx
      exact closeAfter_len hx

theorem matchValue_len : ∀ {s g r : List Char},
    matchValue s = some (g, r) → r.length ≤ s.length := by
  intro s g r h
  match s with
  | [] => exact valueMatch_len h
  | c :: rest =>
    rw [matchValue_cons] at h
    by_cases hq : (c == quoteCh) = true
    · rw [if_pos hq] at h
      cases hv : valueMatch rest with
      | some p =>
        rw [hv] at h
        dsimp only at h
        cases h
        have := valueMatch_len hv
        simp
        omega
      | none =>
        rw [hv] at h
        dsimp only at h
        exact valueMatch_len h
    · rw [if_neg hq] at h
      exact valueMatch_len h

theorem matchAt_some_elim {s : List Char} {g1 g2 r : List Char}
    (h : matchAt s = some (g1, g2, r)) :
    g1 = s.takeWhile nameChar ∧ g1 ≠ [] ∧
      ∃ rest, s.dropWhile nameChar = '=' :: rest ∧ matchValue rest = some (g2, r) := by
  unfold matchAt at h
  by_cases he : (s.takeWhile nameChar).isEmpty
  · simp [he] at h
  · simp only [he, Bool.false_eq_true, if_false] at h
    cases hd : s.dropWhile nameChar with
    | nil => rw [hd] at h; exact absurd h (by simp)
    | cons c rest =>
      rw [hd] at h
      by_cases hc : c = '='
      · subst hc
        rcases Option.map_eq_some'.mp h with ⟨⟨a, b⟩, hx, hfx⟩
        simp at hfx
        obtain ⟨h1, h2, h3⟩ := hfx
        subst h1; subst h2; subst h3
        exact ⟨rfl, fun hz => he (by simp [hz]), rest, rfl, hx⟩
      · exfalso
        cases c
        simp_all

theorem matchAt_len {s : List Char} {g1 g2 r : List Char}
    (h : matchAt s = some (g1, g2, r)) : r.length < s.length := by
  rcases matchAt_some_elim h with ⟨hg1, hne, rest, hd, hv⟩
  have h1 := matchValue_len hv
  have h2 : s.length = (s.takeWhile nameChar).length + (s.dropWhile nameChar).length := by
    rw [← List.length_append, List.takeWhile_append_dropWhile]
  have h3 : (s.takeWhile nameChar).length ≠ 0 := by
    intro hz
    rw [← hg1] at hz
    exact hne (List.length_eq_zero.mp hz)
  rw [hd] at h2
  simp at h2
  omega

theorem takeWhile_append_not {p : Char → Bool} :
    ∀ {n : List Char} {x : Char} {v : List Char},
      (∀ c ∈ n, p c = true) → p x = false →
      (n ++ x :: v).takeWhile p = n ∧ (n ++ x :: v).dropWhile p = x :: v := by
  intro n
  induction n with
  | nil =>
    intro x v _ hx
    constructor
    · simp [List.takeWhile_cons, hx]
    · simp [List.dropWhile_cons, hx]
  | cons c n ih =>
    intro x v hn hx
    have hc : p c = true := hn c (List.mem_cons_self c n)
    have htail := ih (v := v) (fun u hu => hn u (List.mem_cons_of_mem c hu)) hx
    constructor
    · simp only [List.cons_append, List.takeWhile_cons, hc, if_true]
      exact congrArg _ htail.1
    · simp only [List.cons_append, List.dropWhile_cons, hc, if_true]
      exact htail.2

theorem matchAt_intro {n v g r : List Char} (hn : n ≠ [])
    (hchar : ∀ c ∈ n, nameChar c = true) (hv : matchValue v = some (g, r)) :
    matchAt (n ++ '=' :: v) = some (n, g, r) := by
  have heq : nameChar '=' = false := by decide
  have htd := takeWhile_append_not (v := v) hchar heq
  have hie : n.isEmpty = false := by
    cases n with
    | nil => exact absurd rfl hn
    | cons _ _ => rfl
  unfold matchAt
  rw [htd.1, htd.2]
  simp only [hie, Bool.false_eq_true, if_false]
  rw [hv]
  rfl

theorem findAllAux_congr : ∀ (n f₁ f₂ : Nat) (s : List Char),
    s.length ≤ n → s.length ≤ f₁ → s.length ≤ f₂ →
    findAllAux f₁ s = findAllAux f₂ s := by
  intro n
  induction n with
  | zero =>
    intro f₁ f₂ s hn _ _
    have : s = [] := List.length_eq_zero.mp (Nat.le_zero.mp hn)
    subst this
    cases f₁ <;> cases f₂ <;> rfl
  | succ n ih =>
    intro f₁ f₂ s hn h1 h2
    cases s with
    | nil => cases f₁ <;> cases f₂ <;> rfl
    | cons c rest =>
      simp at h1 h2 hn
      obtain ⟨a, rfl⟩ : ∃ a, f₁ = a + 1 := ⟨f₁ - 1, by omega⟩
      obtain ⟨b, rfl⟩ : ∃ b, f₂ = b + 1 := ⟨f₂ - 1, by omega⟩
      simp only [findAllAux]
      cases hm : matchAt (c :: rest) with
      | some x =>
        obtain ⟨g1, g2, r⟩ := x
        have hlen := matchAt_len hm
        simp at hlen
        exact congrArg _ (ih a b r (by omega) (by omega) (by omega))
      | none =>
        exact ih a b rest (by omega) (by omega) (by omega)

theorem findAll_cons_of_match {s : List Char} {g1 g2 r : List Char}
    (h : matchAt s = some (g1, g2, r)) :
    findAll s = (g1, g2) :: findAll r := by
  cases s with
  | nil => simp [matchAt] at h
  | cons c rest =>
    have hlen := matchAt_len h
    unfold findAll
    simp only [List.length_cons, findAllAux, h]
    refine congrArg _ ?_
    simp at hlen
    exact findAllAux_congr rest.length rest.length r.length r (by omega) (by omega) le_rfl

theorem valueMatch_chars : ∀ {s g r : List Char},
    valueMatch s = some (g, r) → ∀ c ∈ g, nameChar c = true := by
  intro s
  induction s with
  | nil =>
    intro g r h c hc
    simp [valueMatch] at h
    rw [h.1] at hc
    simp at hc
  | cons x rest ih =>
    intro g r h c hc
    rw [valueMatch_cons] at h
    by_cases hx : nameChar x = true
    · rw [if_pos hx] at h
      cases hv : valueMatch rest with
      | some p =>
        obtain ⟨g2, r2⟩ := p
        rw [hv] at h
        dsimp only at h
        cases h
        rcases List.mem_cons.mp hc with rfl | hmem
        · exact hx
        · exact ih hv c hmem
      | none =>
        rw [hv] at h
        dsimp only at h
        rcases Option.map_eq_some'.mp h with ⟨y, _, hfy⟩
        cases hfy
        simp at hc
    · rw [if_neg hx] at h
      rcases Option.map_eq_some'.mp h with ⟨y, _, hfy⟩
      cases hfy
      simp at hc

theorem matchValue_chars : ∀ {s g r : List Char},
    matchValue s = some (g, r) → ∀ c ∈ g, nameChar c = true := by
  intro s g r h
  match s with
  | [] => exact valueMatch_chars h
  | x :: rest =>
    rw [matchValue_cons] at h
    by_cases hq : (x == quoteCh) = true
    · rw [if_pos hq] at h
      cases hv : valueMatch rest with
      | some p =>
        rw [hv] at h
        dsimp only at h
        cases h
        exact valueMatch_chars hv
      | none =>
        rw [hv] at h
        dsimp only at h
        exact valueMatch_chars h
    · rw [if_neg hq] at h
      exact valueMatch_chars h

theorem findAll_cons_of_none {c : Char} {rest : List Char}
    (h : matchAt (c :: rest) = none) : findAll (c :: rest) = findAll rest := by
  unfold findAll
  simp only [List.length_cons, findAllAux, h]

theorem findAll_chars : ∀ (n : Nat) (s : List Char), s.length ≤ n →
    ∀ pr ∈ findAll s, (∀ c ∈ pr.1, nameChar c = true) ∧ (∀ c ∈ pr.2, nameChar c = true) := by
  intro n
  induction n with
  | zero =>
    intro s hn pr hpr
    have : s = [] := List.length_eq_zero.mp (Nat.le_zero.mp hn)
    subst this
    simp [findAll, findAllAux] at hpr
  | succ n ih =>
    intro s hn pr hpr
    cases s with
    | nil => simp [findAll, findAllAux] at hpr
    | cons c rest =>
      cases hm : matchAt (c :: rest) with
      | none =>
        rw [findAll_cons_of_none hm] at hpr
        simp at hn
        exact ih rest (by omega) pr hpr
      | some x =>
        obtain ⟨g1, g2, r⟩ := x
        rw [findAll_cons_of_match hm] at hpr
        rcases matchAt_some_elim hm with ⟨hg1, _, vrest, _, hmv⟩
        rcases List.mem_cons.mp hpr with rfl | hmem
        · constructor
          · intro ch hch
            rw [hg1] at hch
            exact List.mem_takeWhile_imp hch
          · exact matchValue_chars hmv
        · have hlen := matchAt_len hm
          simp at hlen hn
          exact ih r (by omega) pr hmem

theorem head?_dropWhile {p : Char → Bool} :
    ∀ {l : List Char} {c : Char}, (l.dropWhile p).head? = some c → p c = false := by
  intro l
  induction l with
  | nil => intro c h; simp [List.dropWhile] at h
  | cons x rest ih =>
    intro c h
    rw [List.dropWhile_cons] at h
    by_cases hx : p x = true
    · rw [if_pos hx] at h
      exact ih h
    · rw [if_neg hx] at h
      simp at h
      subst h
      simpa using hx

theorem dropWhile_eq_self_of_head {p : Char → Bool} {l : List Char}
    (h : ∀ c, l.head? = some c → p c = false) : l.dropWhile p = l := by
  cases l with
  | nil => rfl
  | cons x rest =>
    rw [List.dropWhile_cons, if_neg]
    rw [h x rfl]
    simp

theorem trimSp_sub {l : List Char} : ∀ c ∈ trimSp l, c ∈ l := by
  intro c hc
  unfold trimSp at hc
  rw [List.mem_reverse] at hc
  have h1 := (List.dropWhile_suffix isSp).mem hc
  rw [List.mem_reverse] at h1
  exact (List.dropWhile_suffix isSp).mem h1

theorem trimSp_idem (l : List Char) : trimSp (trimSp l) = trimSp l := by
  unfold trimSp
  set a := l.dropWhile isSp with ha
  set b := (a.reverse).dropWhile isSp with hb
  cases hbe : b with
  | nil => simp [hbe]
  | cons y ys =>
    have hbne : b ≠ [] := by rw [hbe]; simp
    have h1 : b.reverse.dropWhile isSp = b.reverse := by
      apply dropWhile_eq_self_of_head
      intro c hc
      rw [List.head?_reverse] at hc
      have hsuf : b <:+ a.reverse := List.dropWhile_suffix isSp
      obtain ⟨pre, hpre⟩ := hsuf
      have h2 : a.reverse.getLast? = b.getLast? := by
        rw [← hpre]
        exact List.getLast?_append_of_ne_nil pre hbne
      rw [List.getLast?_reverse] at h2
      rw [← h2] at hc
      exact head?_dropWhile hc
    rw [← hbe, h1, List.reverse_reverse]
    have h3 : b.dropWhile isSp = b := by
      apply dropWhile_eq_self_of_head
      intro c hc
      exact head?_dropWhile (hb ▸ hc)
    rw [h3]

theorem string_data_nil {s : String} (h : s.data = []) : s = "" := by
  cases s
  simp at h
  subst h
  rfl

theorem buildTags_good : ∀ (ms : List (List Char × List Char)) (l : tagList),
    buildTags ms = (l, none) →
    (∀ pr ∈ ms, (∀ c ∈ pr.1, nameChar c = true) ∧ (∀ c ∈ pr.2, nameChar c = true)) →
    ∀ tg ∈ l, goodTag tg := by
  intro ms
  induction ms with
  | nil =>
    intro l h _ tg htg
    simp only [buildTags] at h
    cases h
    simp at htg
  | cons pr rest ih =>
    intro l h hch tg htg
    obtain ⟨g1, g2⟩ := pr
    simp only [buildTags] at h
    by_cases hn : (trimSp g1).isEmpty
    · rw [if_pos hn] at h
      cases h
    · rw [if_neg hn] at h
      cases hrec : buildTags rest with
      | mk l2 oe2 =>
        rw [hrec] at h
        cases oe2 with
        | some e => exact absurd (congrArg Prod.snd h) (by simp)
        | none =>
          cases h
          have hh := hch (g1, g2) (List.mem_cons_self _ _)
          rcases List.mem_cons.mp htg with rfl | hmem
          · refine ⟨?_, ?_, trimSp_idem g1, ?_, trimSp_idem g2⟩
            · intro hcon
              apply hn
              have : trimSp g1 = [] := congrArg String.data hcon
              rw [this]
              rfl
            · intro c hc
              exact hh.1 c (trimSp_sub c hc)
            · intro c hc
              exact hh.2 c (trimSp_sub c hc)
          · exact ih l2 hrec (fun q hq => hch q (List.mem_cons_of_mem _ hq)) tg hmem

theorem parse_good {t : String} {l : tagList} (h : parseTags t = (l, none)) :
    ∀ tg ∈ l, goodTag tg :=
  buildTags_good (findAll t.data) l h
    (findAll_chars t.data.length t.data le_rfl)

theorem nameChar_ne_quote {c : Char} (h : nameChar c = true) : (c == quoteCh) = false := by
  unfold nameChar at h
  rw [Bool.and_eq_true] at h
  simpa using h.1

theorem valueMatch_none_seg : ∀ {n : List Char} (r : List Char),
    (∀ c ∈ n, nameChar c = true) → (∀ c ∈ n, ¬(c = ',')) →
    valueMatch (n ++ '=' :: r) = none := by
  intro n
  induction n with
  | nil =>
    intro r _ _
    rw [List.nil_append, valueMatch_cons, if_neg (by decide), closeAfter_cons]
    rw [if_neg (by decide), if_neg (by decide)]
    rfl
  | cons c n ih =>
    intro r hch hcm
    have hc : nameChar c = true := hch c (List.mem_cons_self _ _)
    rw [List.cons_append, valueMatch_cons, if_pos hc]
    rw [ih r (fun u hu => hch u (List.mem_cons_of_mem _ hu))
      (fun u hu => hcm u (List.mem_cons_of_mem _ hu))]
    rw [closeAfter_cons, if_neg (by rw [nameChar_ne_quote hc]; simp)]
    rw [if_neg (by have := hcm c (List.mem_cons_self _ _); simpa using this)]
    rfl

theorem valueMatch_extend : ∀ {p tail g r : List Char},
    (∀ c ∈ p, nameChar c = true) → valueMatch tail = some (g, r) →
    valueMatch (p ++ tail) = some (p ++ g, r) := by
  intro p
  induction p with
  | nil => intro tail g r _ h; simpa using h
  | cons c p ih =>
    intro tail g r hch h
    have hc : nameChar c = true := hch c (List.mem_cons_self _ _)
    rw [List.cons_append, valueMatch_cons, if_pos hc]
    rw [ih (fun u hu => hch u (List.mem_cons_of_mem _ hu)) h]
    rfl

theorem valueMatch_comma_close {s2 : List Char} (h : valueMatch s2 = none) :
    valueMatch (',' :: s2) = some ([], s2) := by
  rw [valueMatch_cons, if_pos (by decide), h, closeAfter_cons]
  rw [if_neg (by decide), if_pos (by decide)]
  rfl

theorem valueMatch_quote_close {tail r : List Char}
    (h : closeAfter (quoteCh :: tail) = some r) :
    valueMatch (quoteCh :: tail) = some ([], r) := by
  rw [valueMatch_cons, if_neg (by decide), h]
  rfl

theorem closeAfter_quote_nil : closeAfter [quoteCh] = some [] := rfl

theorem closeAfter_quote_comma (s : List Char) :
    closeAfter (quoteCh :: ',' :: s) = some s := rfl

theorem matchValue_of_valueMatch : ∀ {s g r : List Char},
    (∀ c rest, s = c :: rest → (c == quoteCh) = false) →
    valueMatch s = some (g, r) → matchValue s = some (g, r) := by
  intro s g r hh h
  match s with
  | [] => exact h
  | c :: rest =>
    rw [matchValue_cons, if_neg (by rw [hh c rest rfl]; simp)]
    exact h

theorem matchValue_quoted {p tail g r : List Char}
    (h : valueMatch (p ++ quoteCh :: tail) = some (g, r)) :
    matchValue (quoteCh :: (p ++ quoteCh :: tail)) = some (g, r) := by
  rw [matchValue_cons, if_pos (by decide), h]

theorem segOf_data (t : tag) :
    (segOf t).data = t.Name.data ++ '=' :: (quoteParam t.Param).data := by
  unfold segOf
  simp [String.data_append]

theorem rejoin_cons_data (t : tag) (u : tag) (rest : tagList) :
    (rejoinTags (t :: u :: rest)).data =
      (segOf t).data ++ ',' :: (rejoinTags (u :: rest)).data := by
  show (segOf t ++ "," ++ rejoinTags (u :: rest)).data = _
  simp [String.data_append]

theorem quoteParam_data_quoted {p : String} (h : p.data.contains ',' = true) :
    (quoteParam p).data = quoteCh :: (p.data ++ [quoteCh]) := by
  unfold quoteParam
  rw [if_pos h]
  simp [String.data_append]

theorem quoteParam_data_plain {p : String} (h : p.data.contains ',' = false) :
    (quoteParam p).data = p.data := by
  unfold quoteParam
  rw [h]
  simp

theorem valueMatch_qp_tail {p : String} {tail rtail : List Char}
    (hch : ∀ c ∈ p.data, nameChar c = true)
    (hclose : valueMatch tail = some ([], rtail))
    (hcq : closeAfter (quoteCh :: tail) = some rtail)
    (hhead : ∀ c rest, tail = c :: rest → (c == quoteCh) = false) :
    matchValue ((quoteParam p).data ++ tail) = some (p.data, rtail) := by
  by_cases hq : p.data.contains ',' = true
  · rw [quoteParam_data_quoted hq]
    have hvm : valueMatch (p.data ++ quoteCh :: tail) = some (p.data, rtail) := by
      have hin : valueMatch (quoteCh :: tail) = some ([], rtail) :=
        valueMatch_quote_close hcq
      have := valueMatch_extend hch hin
      simpa using this
    have : quoteCh :: (p.data ++ [quoteCh]) ++ tail =
        quoteCh :: (p.data ++ quoteCh :: tail) := by simp
    rw [this]
    exact matchValue_quoted hvm
  · rw [quoteParam_data_plain (by simpa using hq)]
    have hvm : valueMatch (p.data ++ tail) = some (p.data, rtail) := by
      have := valueMatch_extend hch hclose
      simpa using this
    apply matchValue_of_valueMatch ?_ hvm
    intro c rest hcr
    cases hd : p.data with
    | nil =>
      rw [hd] at hcr
      simp at hcr
      exact hhead c rest hcr
    | cons x xs =>
      rw [hd] at hcr
      simp at hcr
      have : nameChar x = true := hch x (by rw [hd]; exact List.mem_cons_self _ _)
      rw [← hcr.1]
      exact nameChar_ne_quote this

theorem valueMatch_nil_close : valueMatch ([] : List Char) = some ([], []) := rfl

theorem rejoin_head_seg (u : tag) (rest : tagList) :
    ∃ q, (rejoinTags (u :: rest)).data = u.Name.data ++ '=' :: q := by
  cases rest with
  | nil => exact ⟨(quoteParam u.Param).data, segOf_data u⟩
  | cons w ws =>
    refine ⟨(quoteParam u.Param).data ++ ',' :: (rejoinTags (w :: ws)).data, ?_⟩
    rw [rejoin_cons_data u w ws, segOf_data u]
    simp

theorem findAll_rejoin : ∀ (l : tagList),
    (∀ tg ∈ l, goodTag tg) → (∀ tg ∈ l, ∀ c ∈ tg.Name.data, ¬(c = ',')) →
    findAll (rejoinTags l).data = l.map (fun tg => (tg.Name.data, tg.Param.data)) := by
  intro l
  induction l with
  | nil => intro _ _; rfl
  | cons t rest ih =>
    intro hgood hcm
    have hgt := hgood t (List.mem_cons_self _ _)
    obtain ⟨hne, hchN, _, hchP, _⟩ := hgt
    have hnd : t.Name.data ≠ [] := fun hz => hne (string_data_nil hz)
    cases rest with
    | nil =>
      have hdata : (rejoinTags [t]).data =
          t.Name.data ++ '=' :: ((quoteParam t.Param).data ++ []) := by
        show (segOf t).data = _
        rw [segOf_data]
        simp
      have hmv : matchValue ((quoteParam t.Param).data ++ []) = some (t.Param.data, []) :=
        valueMatch_qp_tail hchP valueMatch_nil_close closeAfter_quote_nil
          (fun c rest hcr => by simp at hcr)
      have hma : matchAt ((rejoinTags [t]).data) = some (t.Name.data, t.Param.data, []) := by
        rw [hdata]
        exact matchAt_intro hnd hchN hmv
      rw [findAll_cons_of_match hma]
      rfl
    | cons u urest =>
      obtain ⟨q, hq⟩ := rejoin_head_seg u urest
      have hgu := hgood u (List.mem_cons_of_mem _ (List.mem_cons_self _ _))
      have hvnone : valueMatch ((rejoinTags (u :: urest)).data) = none := by
        rw [hq]
        exact valueMatch_none_seg q hgu.2.1
          (hcm u (List.mem_cons_of_mem _ (List.mem_cons_self _ _)))
      have hclose : valueMatch (',' :: (rejoinTags (u :: urest)).data) =
          some ([], (rejoinTags (u :: urest)).data) :=
        valueMatch_comma_close hvnone
      have hcq : closeAfter (quoteCh :: ',' :: (rejoinTags (u :: urest)).data) =
          some ((rejoinTags (u :: urest)).data) :=
        closeAfter_quote_comma _
      have hmv : matchValue ((quoteParam t.Param).data ++
          ',' :: (rejoinTags (u :: urest)).data) =
          some (t.Param.data, (rejoinTags (u :: urest)).data) :=
        valueMatch_qp_tail hchP hclose hcq
          (fun c rest hcr => by
            have : c = ',' := by
              have := congrArg List.head? hcr
              simpa using this.symm
            rw [this]
            decide)
      have hdata : (rejoinTags (t :: u :: urest)).data =
          t.Name.data ++ '=' :: ((quoteParam t.Param).data ++
            ',' :: (rejoinTags (u :: urest)).data) := by
        rw [rejoin_cons_data t u urest, segOf_data]
        simp
      have hma : matchAt ((rejoinTags (t :: u :: urest)).data) =
          some (t.Name.data, t.Param.data, (rejoinTags (u :: urest)).data) := by
        rw [hdata]
        exact matchAt_intro hnd hchN hmv
      rw [findAll_cons_of_match hma]
      rw [ih (fun tg htg => hgood tg (List.mem_cons_of_mem _ htg))
        (fun tg htg => hcm tg (List.mem_cons_of_mem _ htg))]
      rfl

theorem buildTags_map_good : ∀ (l : tagList), (∀ tg ∈ l, goodTag tg) →
    buildTags (l.map (fun tg => (tg.Name.data, tg.Param.data))) = (l, none) := by
  intro l
  induction l with
  | nil => intro _; rfl
  | cons t rest ih =>
    intro hgood
    obtain ⟨hne, _, htrimN, _, htrimP⟩ := hgood t (List.mem_cons_self _ _)
    have hie : (t.Name.data).isEmpty = false := by
      cases hd : t.Name.data with
      | nil => exact absurd (string_data_nil hd) hne
      | cons _ _ => rfl
    simp only [List.map_cons, buildTags, htrimN, htrimP, hie, Bool.false_eq_true, if_false]
    rw [ih (fun tg htg => hgood tg (List.mem_cons_of_mem _ htg))]

/-- C4 amended: the round trip holds for every annotation string that parses
successfully AND in which no parsed directive name contains a comma:
re-joining the parsed (name, param) pairs with = and , (single-quoting any
param containing a comma) and re-parsing yields exactly the same directive
list.  (The counterexample shows the comma restriction on names is needed:
the [^'=] name class admits commas, and such a name merges with its
neighbour on re-parse.) -/
theorem c4_roundtrip_amended (t : String) (l : tagList)
    (hp : parseTags t = (l, none))
    (hnc : ∀ tg ∈ l, ∀ c ∈ tg.Name.data, ¬(c = ',')) :
    parseTags (rejoinTags l) = (l, none) := by
  have hgood : ∀ tg ∈ l, goodTag tg := parse_good hp
  unfold parseTags
  rw [findAll_rejoin l hgood hnc]
  exact buildTags_map_good l hgood

/-- C4 amended, witness: a string with a plain pair, a spaced name, and a
single-quoted comma-carrying parameter round-trips exactly. -/
theorem c4_roundtrip_witness :
    parseTags ("q=" ++ ⟨[quoteCh]⟩ ++ "v,a,l" ++ ⟨[quoteCh]⟩ ++ ",m=3, n =x") =
        ([⟨"q", "v,a,l"⟩, ⟨"m", "3"⟩, ⟨"n", "x"⟩], none) ∧
      parseTags (rejoinTags [⟨"q", "v,a,l"⟩, ⟨"m", "3"⟩, ⟨"n", "x"⟩]) =
        ([⟨"q", "v,a,l"⟩, ⟨"m", "3"⟩, ⟨"n", "x"⟩], none) := by
  refine ⟨by decide, ?_⟩
  exact c4_roundtrip_amended ("q=" ++ ⟨[quoteCh]⟩ ++ "v,a,l" ++ ⟨[quoteCh]⟩ ++ ",m=3, n =x")
    [⟨"q", "v,a,l"⟩, ⟨"m", "3"⟩, ⟨"n", "x"⟩] (by decide) (by decide)

end Validator
